import Mathlib

/-!
# MenuBackend (Wiring library): item linking and menu navigation

A shallow embedding of `framework/libraries/MenuBackend/MenuBackend.h`.

* Items live in caller-managed storage.  A `MenuItem*` is an `Option Nat`:
  `none` is the null pointer, `some a` points to the item stored at address `a`.
  The store is a total map from addresses to items.
* A callback slot is a function pointer: `none` is the null pointer, `some f`
  is the function at address `f`.  What a callback does is outside the library;
  invoking one is recorded in the backend's call log together with the event it
  receives and the backend state it could observe at that moment.
* Dereferencing a null item pointer is undefined behaviour in the source; the
  embedding reports it as `Fault.nullDeref`.
* The recursive searches are not structurally terminating; they take a bound on
  the recursion depth and report `Fault.outOfFuel` when it is exceeded.
-/

namespace MenuBackendModel

/-- A pointer to a menu item. -/
abbrev Ptr := Option Nat

/-- A callback function pointer. -/
abbrev Cb := Option Nat

/-- The members of `class MenuItem`. -/
structure MenuItem where
  /-- the bytes of the C string `name` before its terminating NUL -/
  name : List Nat
  shortkey : Nat
  value : Int
  level : Nat
  before : Ptr
  right : Ptr
  after : Ptr
  left : Ptr
  back : Ptr
  exit : Ptr
  cb_onChangeFrom : Cb
  cb_onChangeTo : Cb
  cb_onBack : Cb
  cb_onUp : Cb
  cb_onDown : Cb
  cb_onLeft : Cb
  cb_onRight : Cb
  cb_onUse : Cb
  menuBackend : Option Nat
  deriving DecidableEq, Repr

/-- The item store: what is found at each address. -/
abbrev Heap := Nat → MenuItem

/-- Overwrite the item stored at address `a`. -/
def Heap.set (h : Heap) (a : Nat) (v : MenuItem) : Heap :=
  fun x => if x = a then v else h x

/-- The event structs `MenuChangeEvent`, `MenuUseEvent`, `MenuItemChangeEvent`
and `MenuMoveEvent`; item references are addresses. -/
inductive Event where
  | change (fromItem toItem : Nat)
  | use (item : Nat)
  | itemChange (item : Nat)
  | move (item : Nat)
  deriving DecidableEq, Repr

/-- One callback invocation: the function called, the event passed, and the
backend's `current` and the item store as they stand during the call. -/
structure Call where
  fn : Nat
  ev : Event
  current : Nat
  heap : Heap

/-- The part of a call record that can be compared by evaluation. -/
def Call.brief (c : Call) : Nat × Event × Nat := (c.fn, c.ev, c.current)

/-- The members of `class MenuBackend`.  `root` is the address of the embedded
root item.  `current` is assigned only from `&root`, from a pointer tested
non-null (`setCurrent`) or from a pointer tested non-null in `canSearch`
(`foundShortkeyItem`), so it is held as an address.  `heap` and `log` are the
item store the backend works on and the callbacks invoked so far. -/
structure MenuBackend where
  heap : Heap
  root : Nat
  current : Nat
  cb_menuChange : Cb
  cb_menuUse : Cb
  cb_itemChange : Cb
  log : List Call

/-- Faults of the embedding. -/
inductive Fault where
  | nullDeref
  | outOfFuel
  deriving DecidableEq, Repr

/-! ## MenuItem -/

/-- Storage with static duration before any constructor has run: all zero. -/
def MenuItem.zeroed : MenuItem :=
  { name := [], shortkey := 0, value := 0, level := 0,
    before := none, right := none, after := none, left := none,
    back := none, exit := none,
    cb_onChangeFrom := none, cb_onChangeTo := none, cb_onBack := none,
    cb_onUp := none, cb_onDown := none, cb_onLeft := none, cb_onRight := none,
    cb_onUse := none, menuBackend := none }

/-- The constructor `MenuItem(const char* itemName, char shortKey)`, run on
storage holding `mem`.  It assigns `name`, `shortkey`, the four directional
links, `level`, `value` and `menuBackend`; `back`, `exit` and the callback
slots are not assigned and keep what the storage held. -/
def MenuItem.construct (mem : MenuItem) (itemName : List Nat) (shortKey : Nat) : MenuItem :=
  { mem with
    name := itemName, shortkey := shortKey,
    before := none, right := none, after := none, left := none,
    level := 0, value := 0, menuBackend := none }

/-- The constructor `MenuItem(MenuBackend &mb, const char* itemName,
unsigned char lvl, char shortKey)`, run on storage holding `mem`; `mb` is the
address of the backend. -/
def MenuItem.constructWithBackend (mem : MenuItem) (mb : Nat) (itemName : List Nat)
    (lvl : Nat) (shortKey : Nat) : MenuItem :=
  { mem with
    name := itemName, shortkey := shortKey, menuBackend := some mb,
    before := none, right := none, after := none, left := none,
    value := 0, level := lvl % 256 }

def MenuItem.hasShortkey (m : MenuItem) : Bool := m.shortkey != 0

def MenuItem.hasChildren (m : MenuItem) : Bool :=
  m.before.isSome || m.right.isSome || m.after.isSome || m.left.isSome

/-- The assignment `if (!mi.back) mi.back = back;` shared by the four linking
calls, executed by the item at `this` on the item at `mi`. -/
def inheritBack (h : Heap) (this mi : Nat) : Heap :=
  if (h mi).back = none then h.set mi { h mi with back := (h this).back } else h

/-- The call `this->addBefore(mi)`: the store afterwards and the returned item. -/
def MenuItem.addBefore (h : Heap) (this mi : Nat) : Heap × Nat :=
  let h := h.set mi { h mi with after := some this }
  let h := h.set this { h this with before := some mi }
  (inheritBack h this mi, mi)

/-- The call `this->addRight(mi)`. -/
def MenuItem.addRight (h : Heap) (this mi : Nat) : Heap × Nat :=
  let h := h.set mi { h mi with left := some this }
  let h := h.set this { h this with right := some mi }
  (inheritBack h this mi, mi)

/-- The call `this->addAfter(mi)`. -/
def MenuItem.addAfter (h : Heap) (this mi : Nat) : Heap × Nat :=
  let h := h.set mi { h mi with before := some this }
  let h := h.set this { h this with after := some mi }
  (inheritBack h this mi, mi)

/-- The call `this->addLeft(mi)`. -/
def MenuItem.addLeft (h : Heap) (this mi : Nat) : Heap × Nat :=
  let h := h.set mi { h mi with right := some this }
  let h := h.set this { h this with left := some mi }
  (inheritBack h this mi, mi)

/-- The call `this->add(mi)`. -/
def MenuItem.add (h : Heap) (this mi : Nat) : Heap × Nat :=
  MenuItem.addAfter h this mi

/-- The call `this->addExit(ext)`. -/
def MenuItem.addExit (h : Heap) (this ext : Nat) : Heap × Nat :=
  (h.set this { h this with exit := some ext }, ext)

/-- The call `this->setLevel(lvl)`. -/
def MenuItem.setLevel (h : Heap) (this : Nat) (lvl : Nat) : Heap :=
  h.set this { h this with level := lvl % 256 }

/-- The call `this->onChangeFrom(cb)`. -/
def MenuItem.onChangeFrom (h : Heap) (this : Nat) (cb : Cb) : Heap × Nat :=
  (h.set this { h this with cb_onChangeFrom := cb }, this)

/-- The call `this->onChangeTo(cb)`. -/
def MenuItem.onChangeTo (h : Heap) (this : Nat) (cb : Cb) : Heap × Nat :=
  (h.set this { h this with cb_onChangeTo := cb }, this)

/-- The call `this->onUp(cb)`. -/
def MenuItem.onUp (h : Heap) (this : Nat) (cb : Cb) : Heap × Nat :=
  (h.set this { h this with cb_onUp := cb }, this)

/-- The call `this->onDown(cb)`. -/
def MenuItem.onDown (h : Heap) (this : Nat) (cb : Cb) : Heap × Nat :=
  (h.set this { h this with cb_onDown := cb }, this)

/-- The call `this->onLeft(cb)`. -/
def MenuItem.onLeft (h : Heap) (this : Nat) (cb : Cb) : Heap × Nat :=
  (h.set this { h this with cb_onLeft := cb }, this)

/-- The call `this->onRight(cb)`. -/
def MenuItem.onRight (h : Heap) (this : Nat) (cb : Cb) : Heap × Nat :=
  (h.set this { h this with cb_onRight := cb }, this)

/-- The call `this->onUse(cb)`. -/
def MenuItem.onUse (h : Heap) (this : Nat) (cb : Cb) : Heap × Nat :=
  (h.set this { h this with cb_onUse := cb }, this)

/-- The private `MenuItem::moveBack`. -/
def MenuItem.moveBack (h : Heap) (this : Nat) : Heap × Ptr :=
  (h, (h this).back)

/-- The private `MenuItem::moveExit`: stamps the exit item, returns `back`. -/
def MenuItem.moveExit (h : Heap) (this : Nat) : Heap × Ptr :=
  let h := match (h this).exit with
    | some e => h.set e { h e with back := some this }
    | none => h
  (h, (h this).back)

/-- The private `MenuItem::moveUp`. -/
def MenuItem.moveUp (h : Heap) (this : Nat) : Heap × Ptr :=
  let h := match (h this).before with
    | some n => h.set n { h n with back := some this }
    | none => h
  (h, (h this).before)

/-- The private `MenuItem::moveDown`. -/
def MenuItem.moveDown (h : Heap) (this : Nat) : Heap × Ptr :=
  let h := match (h this).after with
    | some n => h.set n { h n with back := some this }
    | none => h
  (h, (h this).after)

/-- The private `MenuItem::moveLeft`. -/
def MenuItem.moveLeft (h : Heap) (this : Nat) : Heap × Ptr :=
  let h := match (h this).left with
    | some n => h.set n { h n with back := some this }
    | none => h
  (h, (h this).left)

/-- The private `MenuItem::moveRight`. -/
def MenuItem.moveRight (h : Heap) (this : Nat) : Heap × Ptr :=
  let h := match (h this).right with
    | some n => h.set n { h n with back := some this }
    | none => h
  (h, (h this).right)

/-- The private `MenuItem::menuTestStrings`.  A C string is given by its
bytes; the terminating NUL is what is read past the end of the list, and a 0
inside the list ends the string there. -/
def MenuItem.menuTestStrings (a b : List Nat) : Bool :=
  match a with
  | [] => true
  | x :: a' =>
    if x = 0 then true
    else if x ≠ b.headD 0 then false
    else MenuItem.menuTestStrings a' b.tail

/-- The call `this->isEqual(mi)`. -/
def MenuItem.isEqual (this mi : MenuItem) : Bool :=
  MenuItem.menuTestStrings this.name mi.name && decide (this.value = mi.value)

/-- The C string a list of bytes stands for: the bytes before the first 0. -/
def cstr (l : List Nat) : List Nat := l.takeWhile fun c => decide (c ≠ 0)

/-! ## MenuBackend -/

/-- The pattern `if (cb) { Event e = ...; (*cb)(e); }`: the callback in slot
`cb`, when set, is invoked with `ev` in backend state `s`. -/
def fire (s : MenuBackend) (cb : Cb) (ev : Event) : MenuBackend :=
  match cb with
  | some f => { s with log := s.log ++ [{ fn := f, ev := ev, current := s.current, heap := s.heap }] }
  | none => s

/-- The bytes of the string literal "MenuRoot". -/
def menuRootName : List Nat := [77, 101, 110, 117, 82, 111, 111, 116]

/-- The constructor `MenuBackend(menuUse, menuChange, itemChange)`, for a
backend whose `root` member lies at address `rootAddr` of the store `mem`. -/
def MenuBackend.construct (mem : Heap) (rootAddr : Nat) (menuUse menuChange itemChange : Cb) :
    MenuBackend :=
  { heap := mem.set rootAddr (MenuItem.construct (mem rootAddr) menuRootName 0),
    root := rootAddr,
    current := rootAddr,
    cb_menuChange := menuChange,
    cb_menuUse := menuUse,
    cb_itemChange := itemChange,
    log := [] }

def MenuBackend.getRoot (s : MenuBackend) : Nat := s.root

def MenuBackend.getCurrent (s : MenuBackend) : Nat := s.current

/-- The private `MenuBackend::setCurrent`. -/
def MenuBackend.setCurrent (s : MenuBackend) (next : Ptr) : MenuBackend :=
  match next with
  | some n =>
    let mce := Event.change s.current n
    let s := fire s (s.heap s.current).cb_onChangeFrom mce
    let s := fire s (s.heap n).cb_onChangeTo mce
    let s := fire s s.cb_menuChange mce
    { s with current := n }
  | none => s

def MenuBackend.moveBack (s : MenuBackend) : MenuBackend :=
  let s := fire s (s.heap s.current).cb_onBack (Event.move s.current)
  s.setCurrent (s.heap s.current).back

def MenuBackend.moveExit (s : MenuBackend) : MenuBackend :=
  s.setCurrent (s.heap s.current).exit

def MenuBackend.moveUp (s : MenuBackend) : MenuBackend :=
  let s := fire s (s.heap s.current).cb_onUp (Event.move s.current)
  let r := MenuItem.moveUp s.heap s.current
  MenuBackend.setCurrent { s with heap := r.1 } r.2

def MenuBackend.moveDown (s : MenuBackend) : MenuBackend :=
  let s := fire s (s.heap s.current).cb_onDown (Event.move s.current)
  let r := MenuItem.moveDown s.heap s.current
  MenuBackend.setCurrent { s with heap := r.1 } r.2

def MenuBackend.moveLeft (s : MenuBackend) : MenuBackend :=
  let s := fire s (s.heap s.current).cb_onLeft (Event.move s.current)
  let r := MenuItem.moveLeft s.heap s.current
  MenuBackend.setCurrent { s with heap := r.1 } r.2

def MenuBackend.moveRight (s : MenuBackend) : MenuBackend :=
  let s := fire s (s.heap s.current).cb_onRight (Event.move s.current)
  let r := MenuItem.moveRight s.heap s.current
  MenuBackend.setCurrent { s with heap := r.1 } r.2

/-- The overload `use()`. -/
def MenuBackend.use (s : MenuBackend) : MenuBackend :=
  let s := fire s (s.heap s.current).cb_onUse (Event.use s.current)
  fire s s.cb_menuUse (Event.use s.current)

/-- The overload `use(MenuItem &item)`. -/
def MenuBackend.useItem (s : MenuBackend) (item : Nat) : MenuBackend :=
  (s.setCurrent (some item)).use

def MenuBackend.select (s : MenuBackend) (item : Nat) : MenuBackend :=
  s.setCurrent (some item)

def MenuBackend.fireItemChangedEvent (s : MenuBackend) (mi : Nat) : MenuBackend :=
  fire s s.cb_itemChange (Event.itemChange mi)

/-- The private `MenuBackend::foundShortkeyItem`. -/
def MenuBackend.foundShortkeyItem (s : MenuBackend) (mi : Nat) : MenuBackend :=
  { s with heap := s.heap.set mi { s.heap mi with back := some s.current }, current := mi }

/-- The private `MenuBackend::canSearch`: the returned `char` and the state
afterwards. -/
def MenuBackend.canSearch (s : MenuBackend) (shortkey : Nat) (m : Ptr) : Int × MenuBackend :=
  match m with
  | none => (0, s)
  | some a =>
    if (s.heap a).shortkey = shortkey then (1, s.foundShortkeyItem a) else (-1, s)

/-- Evaluate `m->getAfter()` and the like: `m` is dereferenced. -/
def deref (s : MenuBackend) (m : Ptr) (field : MenuItem → Ptr) : Except Fault Ptr :=
  match m with
  | none => .error .nullDeref
  | some a => .ok (field (s.heap a))

mutual

/-- The private `MenuBackend::rSAfter`, with recursion depth at most `fuel`. -/
def MenuBackend.rSAfter (fuel : Nat) (s : MenuBackend) (shortkey : Nat) (m : Ptr) :
    Except Fault MenuBackend :=
  match fuel with
  | 0 => .error .outOfFuel
  | fuel + 1 =>
    let r := s.canSearch shortkey m
    if r.1 ≠ 1 then do
      let s := r.2
      let s ← MenuBackend.rSAfter fuel s shortkey (← deref s m MenuItem.after)
      let s ← MenuBackend.rSRight fuel s shortkey (← deref s m MenuItem.right)
      MenuBackend.rSLeft fuel s shortkey (← deref s m MenuItem.left)
    else .ok r.2
termination_by structural fuel

/-- The private `MenuBackend::rSRight`, with recursion depth at most `fuel`. -/
def MenuBackend.rSRight (fuel : Nat) (s : MenuBackend) (shortkey : Nat) (m : Ptr) :
    Except Fault MenuBackend :=
  match fuel with
  | 0 => .error .outOfFuel
  | fuel + 1 =>
    let r := s.canSearch shortkey m
    if r.1 ≠ 1 then do
      let s := r.2
      let s ← MenuBackend.rSAfter fuel s shortkey (← deref s m MenuItem.after)
      let s ← MenuBackend.rSRight fuel s shortkey (← deref s m MenuItem.right)
      MenuBackend.rSBefore fuel s shortkey (← deref s m MenuItem.before)
    else .ok r.2
termination_by structural fuel

/-- The private `MenuBackend::rSLeft`, with recursion depth at most `fuel`. -/
def MenuBackend.rSLeft (fuel : Nat) (s : MenuBackend) (shortkey : Nat) (m : Ptr) :
    Except Fault MenuBackend :=
  match fuel with
  | 0 => .error .outOfFuel
  | fuel + 1 =>
    let r := s.canSearch shortkey m
    if r.1 ≠ 1 then do
      let s := r.2
      let s ← MenuBackend.rSAfter fuel s shortkey (← deref s m MenuItem.after)
      let s ← MenuBackend.rSLeft fuel s shortkey (← deref s m MenuItem.left)
      MenuBackend.rSBefore fuel s shortkey (← deref s m MenuItem.before)
    else .ok r.2
termination_by structural fuel

/-- The private `MenuBackend::rSBefore`, with recursion depth at most `fuel`. -/
def MenuBackend.rSBefore (fuel : Nat) (s : MenuBackend) (shortkey : Nat) (m : Ptr) :
    Except Fault MenuBackend :=
  match fuel with
  | 0 => .error .outOfFuel
  | fuel + 1 =>
    let r := s.canSearch shortkey m
    if r.1 ≠ 1 then do
      let s := r.2
      let s ← MenuBackend.rSRight fuel s shortkey (← deref s m MenuItem.right)
      let s ← MenuBackend.rSLeft fuel s shortkey (← deref s m MenuItem.left)
      MenuBackend.rSBefore fuel s shortkey (← deref s m MenuItem.before)
    else .ok r.2
termination_by structural fuel

end

/-- The private `MenuBackend::recursiveSearch`; the calls it makes may nest
`fuel` deep. -/
def MenuBackend.recursiveSearch (fuel : Nat) (s : MenuBackend) (shortkey : Nat) (m : Ptr) :
    Except Fault MenuBackend :=
  let r := s.canSearch shortkey m
  if r.1 ≠ 1 then do
    let s := r.2
    let s ← MenuBackend.rSAfter fuel s shortkey (← deref s m MenuItem.after)
    let s ← MenuBackend.rSRight fuel s shortkey (← deref s m MenuItem.right)
    let s ← MenuBackend.rSLeft fuel s shortkey (← deref s m MenuItem.left)
    MenuBackend.rSBefore fuel s shortkey (← deref s m MenuItem.before)
  else .ok r.2

/-- The overload `use(char shortkey)`. -/
def MenuBackend.useShortkey (fuel : Nat) (s : MenuBackend) (shortkey : Nat) :
    Except Fault MenuBackend := do
  let s ← s.recursiveSearch fuel shortkey (some s.root)
  pure s.use

mutual

/-- The private `MenuBackend::rSLAfter`, with recursion depth at most `fuel`. -/
def MenuBackend.rSLAfter (fuel : Nat) (s : MenuBackend) (level : Nat) (m : Ptr) :
    Except Fault MenuBackend :=
  match fuel, m with
  | 0, _ => .error .outOfFuel
  | _ + 1, none => .ok s
  | fuel + 1, some a =>
    if (s.heap a).level = level then .ok (s.setCurrent (some a))
    else do
      let s ← MenuBackend.rSLAfter fuel s level (s.heap a).after
      let s ← MenuBackend.rSLRight fuel s level (s.heap a).right
      MenuBackend.rSLLeft fuel s level (s.heap a).left
termination_by structural fuel

/-- The private `MenuBackend::rSLRight`, with recursion depth at most `fuel`. -/
def MenuBackend.rSLRight (fuel : Nat) (s : MenuBackend) (level : Nat) (m : Ptr) :
    Except Fault MenuBackend :=
  match fuel, m with
  | 0, _ => .error .outOfFuel
  | _ + 1, none => .ok s
  | fuel + 1, some a =>
    if (s.heap a).level = level then .ok (s.setCurrent (some a))
    else do
      let s ← MenuBackend.rSLAfter fuel s level (s.heap a).after
      let s ← MenuBackend.rSLRight fuel s level (s.heap a).right
      MenuBackend.rSLBefore fuel s level (s.heap a).before
termination_by structural fuel

/-- The private `MenuBackend::rSLLeft`, with recursion depth at most `fuel`. -/
def MenuBackend.rSLLeft (fuel : Nat) (s : MenuBackend) (level : Nat) (m : Ptr) :
    Except Fault MenuBackend :=
  match fuel, m with
  | 0, _ => .error .outOfFuel
  | _ + 1, none => .ok s
  | fuel + 1, some a =>
    if (s.heap a).level = level then .ok (s.setCurrent (some a))
    else do
      let s ← MenuBackend.rSLAfter fuel s level (s.heap a).after
      let s ← MenuBackend.rSLLeft fuel s level (s.heap a).left
      MenuBackend.rSLBefore fuel s level (s.heap a).before
termination_by structural fuel

/-- The private `MenuBackend::rSLBefore`, with recursion depth at most `fuel`. -/
def MenuBackend.rSLBefore (fuel : Nat) (s : MenuBackend) (level : Nat) (m : Ptr) :
    Except Fault MenuBackend :=
  match fuel, m with
  | 0, _ => .error .outOfFuel
  | _ + 1, none => .ok s
  | fuel + 1, some a =>
    if (s.heap a).level = level then .ok (s.setCurrent (some a))
    else do
      let s ← MenuBackend.rSLRight fuel s level (s.heap a).right
      let s ← MenuBackend.rSLLeft fuel s level (s.heap a).left
      MenuBackend.rSLBefore fuel s level (s.heap a).before
termination_by structural fuel

end

/-- The private `MenuBackend::recursiveSearchForLevel`; the calls it makes may
nest `fuel` deep. -/
def MenuBackend.recursiveSearchForLevel (fuel : Nat) (s : MenuBackend) (level : Nat) (m : Ptr) :
    Except Fault MenuBackend :=
  match m with
  | some a => do
    let s ← MenuBackend.rSLAfter fuel s level (s.heap a).after
    let s ← MenuBackend.rSLRight fuel s level (s.heap a).right
    let s ← MenuBackend.rSLLeft fuel s level (s.heap a).left
    MenuBackend.rSLBefore fuel s level (s.heap a).before
  | none => .ok s

/-- The public `MenuBackend::moveToLevel(unsigned char level)`; `level` is the
value of the `unsigned char` argument. -/
def MenuBackend.moveToLevel (fuel : Nat) (s : MenuBackend) (level : Nat) :
    Except Fault MenuBackend := do
  let cur := s.current
  let s ← s.recursiveSearchForLevel fuel level (some s.current)
  if cur ≠ s.current then
    let mce := Event.change cur s.current
    let s := fire s (s.heap cur).cb_onChangeFrom mce
    let s := fire s (s.heap s.current).cb_onChangeTo mce
    pure (fire s s.cb_menuChange mce)
  else pure s

/-- The public `MenuBackend::moveRelativeLevels(int levels)`: the `int` sum is
converted to the `unsigned char` parameter of `moveToLevel`. -/
def MenuBackend.moveRelativeLevels (fuel : Nat) (s : MenuBackend) (levels : Int) :
    Except Fault MenuBackend :=
  let move : Int := levels + (s.heap s.current).level
  s.moveToLevel fuel (move % 256).toNat

/-! ## Dispatch over the linking calls and the movements -/

/-- The five linking calls of `MenuItem`. -/
inductive LinkOp where
  | add
  | addBefore
  | addAfter
  | addLeft
  | addRight
  deriving DecidableEq, Repr

/-- Run a linking call on the item at `this` with argument `mi`. -/
def LinkOp.run : LinkOp → Heap → Nat → Nat → Heap × Nat
  | .add => MenuItem.add
  | .addBefore => MenuItem.addBefore
  | .addAfter => MenuItem.addAfter
  | .addLeft => MenuItem.addLeft
  | .addRight => MenuItem.addRight

/-- The six movements of the backend. -/
inductive Move where
  | up
  | down
  | left
  | right
  | back
  | exit
  deriving DecidableEq, Repr

/-- The backend operation for a movement. -/
def Move.run : Move → MenuBackend → MenuBackend
  | .up => MenuBackend.moveUp
  | .down => MenuBackend.moveDown
  | .left => MenuBackend.moveLeft
  | .right => MenuBackend.moveRight
  | .back => MenuBackend.moveBack
  | .exit => MenuBackend.moveExit

/-- The reference a movement follows: `moveUp` follows `before`, `moveDown`
follows `after`, `moveLeft` follows `left`, `moveRight` follows `right`,
`moveBack` follows `back`, `moveExit` follows `exit`. -/
def Move.target : Move → MenuItem → Ptr
  | .up => MenuItem.before
  | .down => MenuItem.after
  | .left => MenuItem.left
  | .right => MenuItem.right
  | .back => MenuItem.back
  | .exit => MenuItem.exit

/-- The per-item hook a movement fires before it resolves its target;
`moveExit` fires none. -/
def Move.hook : Move → MenuItem → Cb
  | .up => MenuItem.cb_onUp
  | .down => MenuItem.cb_onDown
  | .left => MenuItem.cb_onLeft
  | .right => MenuItem.cb_onRight
  | .back => MenuItem.cb_onBack
  | .exit => fun _ => none

/-- The four directional movements `moveUp`, `moveDown`, `moveLeft`,
`moveRight`. -/
def Move.directional : Move → Bool
  | .up => true
  | .down => true
  | .left => true
  | .right => true
  | .back => false
  | .exit => false

/-- The log entries made when slot `cb` is invoked with `ev` while the backend
shows `cur` and `heap`: one entry if the slot is set, none otherwise. -/
def callsOf (cb : Cb) (ev : Event) (cur : Nat) (heap : Heap) : List Call :=
  match cb with
  | some f => [{ fn := f, ev := ev, current := cur, heap := heap }]
  | none => []

/-- The fault a run ended with, if it did not return normally. -/
def faultOf (r : Except Fault MenuBackend) : Option Fault :=
  match r with
  | .error e => some e
  | .ok _ => none

/-! ## The search order the specification speaks of -/

/-- The link over which a search arrived at an item. -/
inductive Via where
  | after
  | right
  | left
  | before
  deriving DecidableEq, Repr

/-- Spec: the depth-first order in which a search that arrived at `m` over the
link `via` meets the items: `m` itself, then the subtrees of its neighbours in
the direction-restricted order (arriving over `after`: after, right, left;
over `right`: after, right, before; over `left`: after, left, before; over
`before`: right, left, before).  Absent neighbours contribute nothing; items
deeper than `fuel` are left out. -/
def searchOrderVia (fuel : Nat) (h : Heap) (via : Via) (m : Ptr) : List Nat :=
  match fuel, m with
  | 0, _ => []
  | _ + 1, none => []
  | fuel + 1, some a =>
    a :: match via with
      | .after =>
        searchOrderVia fuel h .after (h a).after ++ searchOrderVia fuel h .right (h a).right
          ++ searchOrderVia fuel h .left (h a).left
      | .right =>
        searchOrderVia fuel h .after (h a).after ++ searchOrderVia fuel h .right (h a).right
          ++ searchOrderVia fuel h .before (h a).before
      | .left =>
        searchOrderVia fuel h .after (h a).after ++ searchOrderVia fuel h .left (h a).left
          ++ searchOrderVia fuel h .before (h a).before
      | .before =>
        searchOrderVia fuel h .right (h a).right ++ searchOrderVia fuel h .left (h a).left
          ++ searchOrderVia fuel h .before (h a).before
termination_by structural fuel

/-- Spec: the depth-first order of the neighbours' subtrees of `start`: its
after-, right-, left- and before-subtree, `start` itself left out. -/
def subtreeOrder (fuel : Nat) (h : Heap) (start : Nat) : List Nat :=
  searchOrderVia fuel h .after (h start).after ++ searchOrderVia fuel h .right (h start).right
    ++ searchOrderVia fuel h .left (h start).left ++ searchOrderVia fuel h .before (h start).before

/-- Spec: the first item carrying `shortkey` in the depth-first order from
root: root itself, then its after-, right-, left-, before-subtrees. -/
def firstWithShortkey (fuel : Nat) (s : MenuBackend) (shortkey : Nat) : Option Nat :=
  (s.root :: subtreeOrder fuel s.heap s.root).find? fun a => (s.heap a).shortkey = shortkey

/-- Spec: the first item at `level` in the depth-first order from the current
item: its after-, right-, left-, before-subtrees. -/
def firstAtLevel (fuel : Nat) (s : MenuBackend) (level : Nat) : Option Nat :=
  (subtreeOrder fuel s.heap s.current).find? fun a => (s.heap a).level = level

/-- The neighbour of an item over a link. -/
def Via.link : Via → MenuItem → Ptr
  | .after => MenuItem.after
  | .right => MenuItem.right
  | .left => MenuItem.left
  | .before => MenuItem.before

/-- The shortkey-search function that is entered for a neighbour reached over
`via`. -/
def MenuBackend.rSVia (via : Via) (fuel : Nat) (s : MenuBackend) (shortkey : Nat) (m : Ptr) :
    Except Fault MenuBackend :=
  match via with
  | .after => MenuBackend.rSAfter fuel s shortkey m
  | .right => MenuBackend.rSRight fuel s shortkey m
  | .left => MenuBackend.rSLeft fuel s shortkey m
  | .before => MenuBackend.rSBefore fuel s shortkey m

/-- The level-search function that is entered for a neighbour reached over
`via`. -/
def MenuBackend.rSLVia (via : Via) (fuel : Nat) (s : MenuBackend) (level : Nat) (m : Ptr) :
    Except Fault MenuBackend :=
  match via with
  | .after => MenuBackend.rSLAfter fuel s level m
  | .right => MenuBackend.rSLRight fuel s level m
  | .left => MenuBackend.rSLLeft fuel s level m
  | .before => MenuBackend.rSLBefore fuel s level m

/-- Spec: the items satisfying `p` that a search arriving at `m` over `via`
meets, in depth-first order with the direction-restricted neighbour order; the
search does not descend below an item satisfying `p`. -/
def matchesVia (p : MenuItem → Bool) (fuel : Nat) (h : Heap) (via : Via) (m : Ptr) : List Nat :=
  match fuel, m with
  | 0, _ => []
  | _ + 1, none => []
  | fuel + 1, some a =>
    if p (h a) then [a]
    else match via with
      | .after =>
        matchesVia p fuel h .after (h a).after ++ matchesVia p fuel h .right (h a).right
          ++ matchesVia p fuel h .left (h a).left
      | .right =>
        matchesVia p fuel h .after (h a).after ++ matchesVia p fuel h .right (h a).right
          ++ matchesVia p fuel h .before (h a).before
      | .left =>
        matchesVia p fuel h .after (h a).after ++ matchesVia p fuel h .left (h a).left
          ++ matchesVia p fuel h .before (h a).before
      | .before =>
        matchesVia p fuel h .right (h a).right ++ matchesVia p fuel h .left (h a).left
          ++ matchesVia p fuel h .before (h a).before
termination_by structural fuel

/-- Spec: the items satisfying `p` met in the after-, right-, left- and
before-subtree of `start`, in that order. -/
def matchesFrom (p : MenuItem → Bool) (fuel : Nat) (h : Heap) (start : Nat) : List Nat :=
  matchesVia p fuel h .after (h start).after ++ matchesVia p fuel h .right (h start).right
    ++ matchesVia p fuel h .left (h start).left ++ matchesVia p fuel h .before (h start).before

/-- Spec: the menu below `m`, entered over `via`, is finite: following the
direction-restricted neighbour order from `m`, every chain of neighbours ends
at an absent neighbour, in a nesting of fewer than `fuel` items. -/
def finiteVia (fuel : Nat) (h : Heap) (via : Via) (m : Ptr) : Bool :=
  match fuel, m with
  | 0, _ => false
  | _ + 1, none => true
  | fuel + 1, some a =>
    match via with
    | .after =>
      finiteVia fuel h .after (h a).after && finiteVia fuel h .right (h a).right
        && finiteVia fuel h .left (h a).left
    | .right =>
      finiteVia fuel h .after (h a).after && finiteVia fuel h .right (h a).right
        && finiteVia fuel h .before (h a).before
    | .left =>
      finiteVia fuel h .after (h a).after && finiteVia fuel h .left (h a).left
        && finiteVia fuel h .before (h a).before
    | .before =>
      finiteVia fuel h .right (h a).right && finiteVia fuel h .left (h a).left
        && finiteVia fuel h .before (h a).before
termination_by structural fuel

/-- Spec: the menu around `start` is finite in all four directions. -/
def finiteFrom (fuel : Nat) (h : Heap) (start : Nat) : Bool :=
  finiteVia fuel h .after (h start).after && finiteVia fuel h .right (h start).right
    && finiteVia fuel h .left (h start).left && finiteVia fuel h .before (h start).before

/-- Spec: the items at `level` the level search from the current item meets. -/
def levelMatches (fuel : Nat) (s : MenuBackend) (level : Nat) : List Nat :=
  matchesFrom (fun i => decide (i.level = level)) fuel s.heap s.current

/-- Spec: the items carrying `shortkey` the shortkey search from root meets:
root itself if it carries the key, else those in its four subtrees. -/
def shortkeyMatches (fuel : Nat) (s : MenuBackend) (shortkey : Nat) : List Nat :=
  if (s.heap s.root).shortkey = shortkey then [s.root]
  else matchesFrom (fun i => decide (i.shortkey = shortkey)) fuel s.heap s.root

/-- An item with its `back` pointer left out of consideration. -/
def MenuItem.eraseBack (m : MenuItem) : MenuItem := { m with back := none }

/-- The value of an `int` of `w` bits after an overflowing addition wraps
around (two's complement). -/
def wrapInt (w : Nat) (x : Int) : Int :=
  (x + 2 ^ (w - 1)) % 2 ^ w - 2 ^ (w - 1)

/-! ## Sequences of linking calls -/

/-- Link symmetry: `x.after` is `y` exactly when `y.before` is `x`, and
`x.right` is `y` exactly when `y.left` is `x`. -/
def Symmetric (h : Heap) : Prop :=
  ∀ x y, ((h x).after = some y ↔ (h y).before = some x) ∧
    ((h x).right = some y ↔ (h y).left = some x)

/-- No item has a directional neighbour, as after construction. -/
def Unlinked (h : Heap) : Prop :=
  ∀ x, (h x).after = none ∧ (h x).before = none ∧ (h x).right = none ∧ (h x).left = none

/-- The two slots a linking call writes are both empty: the slot of `this` in
the direction of the call and the opposite slot of `mi`. -/
def LinkOp.slotsFree : LinkOp → Heap → Nat → Nat → Prop
  | .add, h, this, mi => (h this).after = none ∧ (h mi).before = none
  | .addAfter, h, this, mi => (h this).after = none ∧ (h mi).before = none
  | .addBefore, h, this, mi => (h this).before = none ∧ (h mi).after = none
  | .addRight, h, this, mi => (h this).right = none ∧ (h mi).left = none
  | .addLeft, h, this, mi => (h this).left = none ∧ (h mi).right = none

/-- Run a sequence of linking calls `(op, this, mi)`. -/
def runLinks (h : Heap) : List (LinkOp × Nat × Nat) → Heap
  | [] => h
  | c :: rest => runLinks (c.1.run h c.2.1 c.2.2).1 rest

/-- Every call of the sequence finds the two slots it writes empty at the
moment it is made. -/
def FreeRun (h : Heap) : List (LinkOp × Nat × Nat) → Prop
  | [] => True
  | c :: rest => c.1.slotsFree h c.2.1 c.2.2 ∧ FreeRun (c.1.run h c.2.1 c.2.2).1 rest

/-! ## Tree-shaped menus -/

/-- The link that leads back over the one just followed. -/
def Via.opp : Via → Via
  | .after => .before
  | .before => .after
  | .right => .left
  | .left => .right

/-- The item reached from `x` by following the links of `ws` one after the
other, if they all exist. -/
def follow (h : Heap) (x : Nat) : List Via → Option Nat
  | [] => some x
  | v :: ws =>
    match v.link (h x) with
    | none => none
    | some y => follow h y ws

/-- A sequence of links that never turns back: no link is followed by its
opposite. -/
def Reduced (ws : List Via) : Prop :=
  List.Chain' (fun v w => w ≠ v.opp) ws

/-- The items passed on the walk from `x` along `ws`, `x` first. -/
def trail (h : Heap) (x : Nat) : List Via → List Nat
  | [] => [x]
  | v :: ws =>
    x :: match v.link (h x) with
      | none => []
      | some y => trail h y ws

/-- The menu has no undirected cycle: no walk of one or more links that never
turns back returns to the item it started from.  With symmetric links a link
and its opposite are the two ends of one connection, so this rules out
self-links, two different connections between the same two items, and longer
cycles. -/
def Acyclic (h : Heap) : Prop :=
  ∀ x ws, ws ≠ [] → Reduced ws → follow h x ws ≠ some x

/-- The items on which the level search entered over `via` at `m` evaluates
`getLevel()`, in the order it does so. -/
def examinedVia (level : Nat) (fuel : Nat) (h : Heap) (via : Via) (m : Ptr) : List Nat :=
  match fuel, m with
  | 0, _ => []
  | _ + 1, none => []
  | fuel + 1, some a =>
    a :: if (h a).level = level then []
      else match via with
        | .after =>
          examinedVia level fuel h .after (h a).after ++ examinedVia level fuel h .right (h a).right
            ++ examinedVia level fuel h .left (h a).left
        | .right =>
          examinedVia level fuel h .after (h a).after ++ examinedVia level fuel h .right (h a).right
            ++ examinedVia level fuel h .before (h a).before
        | .left =>
          examinedVia level fuel h .after (h a).after ++ examinedVia level fuel h .left (h a).left
            ++ examinedVia level fuel h .before (h a).before
        | .before =>
          examinedVia level fuel h .right (h a).right ++ examinedVia level fuel h .left (h a).left
            ++ examinedVia level fuel h .before (h a).before
termination_by structural fuel

/-- The items `recursiveSearchForLevel(level, start)` examines, in order. -/
def examinedFrom (level : Nat) (fuel : Nat) (h : Heap) (start : Nat) : List Nat :=
  examinedVia level fuel h .after (h start).after ++ examinedVia level fuel h .right (h start).right
    ++ examinedVia level fuel h .left (h start).left
    ++ examinedVia level fuel h .before (h start).before

/-! ## Example menus -/

/-- Storage of static duration before any constructor has run. -/
def staticStore : Heap := fun _ => MenuItem.zeroed

/-- A backend at address 0 with global use hook 100 and global change hook
101 and no items besides its root. -/
def rootOnly : MenuBackend :=
  MenuBackend.construct staticStore 0 (some 100) (some 101) none

/-- The menu `root.addAfter(A)`: A ("A", shortkey 'X') lies at address 1 and
has its `onUse` hook (7) and `onChangeTo` hook (8) set; root has its
`onChangeFrom` hook (9) set; current is root. -/
def rootThenA : MenuBackend :=
  let h := rootOnly.heap.set 1 (MenuItem.construct (rootOnly.heap 1) [65] 88)
  let h := (MenuItem.onUse h 1 (some 7)).1
  let h := (MenuItem.onChangeTo h 1 (some 8)).1
  let h := (MenuItem.onChangeFrom h 0 (some 9)).1
  let h := (MenuItem.addAfter h 0 1).1
  { rootOnly with heap := h }

/-- The menu `root.addAfter(A); root.addRight(B); root.addLeft(C);
root.addBefore(D)` with A, B, C, D at addresses 1, 2, 3, 4, all four carrying
shortkey 'X'; current is root. -/
def fourWithSameKey : MenuBackend :=
  let h := rootOnly.heap.set 1 (MenuItem.construct (rootOnly.heap 1) [65] 88)
  let h := h.set 2 (MenuItem.construct (h 2) [66] 88)
  let h := h.set 3 (MenuItem.construct (h 3) [67] 88)
  let h := h.set 4 (MenuItem.construct (h 4) [68] 88)
  let h := (MenuItem.addAfter h 0 1).1
  let h := (MenuItem.addRight h 0 2).1
  let h := (MenuItem.addLeft h 0 3).1
  let h := (MenuItem.addBefore h 0 4).1
  { rootOnly with heap := h }

/-- The menu `root.addExit(E)` with E at address 1; current is root. -/
def rootWithExit : MenuBackend :=
  let h := rootOnly.heap.set 1 (MenuItem.construct (rootOnly.heap 1) [69] 0)
  let h := (MenuItem.addExit h 0 1).1
  { rootOnly with heap := h }

/-- The menu `root.addAfter(A); root.addRight(B)` with root at level 0 and A
(address 1) and B (address 2) both at level 2; current is root. -/
def twoAtLevelTwo : MenuBackend :=
  let h := rootOnly.heap.set 1 (MenuItem.constructWithBackend (rootOnly.heap 1) 0 [65] 2 0)
  let h := h.set 2 (MenuItem.constructWithBackend (h 2) 0 [66] 2 0)
  let h := (MenuItem.addAfter h 0 1).1
  let h := (MenuItem.addRight h 0 2).1
  { rootOnly with heap := h }

/-- The menu `root.addAfter(A); A.addRight(B)` with root at level 0, A
(address 1) at level 1 and B (address 2) at level 2; current is root. -/
def levelChain : MenuBackend :=
  let h := rootOnly.heap.set 1 (MenuItem.constructWithBackend (rootOnly.heap 1) 0 [65] 1 0)
  let h := h.set 2 (MenuItem.constructWithBackend (h 2) 0 [66] 2 0)
  let h := (MenuItem.addAfter h 0 1).1
  let h := (MenuItem.addRight h 1 2).1
  { rootOnly with heap := h }

/-- The menu `root.addAfter(M)` with M (address 1) at level 1 and the only
item at that level; root has its `onChangeFrom` hook (9) set, M its
`onChangeTo` hook (8), the backend its global change hook (101); current is
root. -/
def rootThenLevelOne : MenuBackend :=
  let h := rootOnly.heap.set 1 (MenuItem.constructWithBackend (rootOnly.heap 1) 0 [77] 1 0)
  let h := (MenuItem.onChangeTo h 1 (some 8)).1
  let h := (MenuItem.onChangeFrom h 0 (some 9)).1
  let h := (MenuItem.addAfter h 0 1).1
  { rootOnly with heap := h }

/-- An item constructed with the name "Fi". -/
def itemFi : MenuItem := MenuItem.construct MenuItem.zeroed [70, 105] 0

/-- An item constructed with the name "File". -/
def itemFile : MenuItem := MenuItem.construct MenuItem.zeroed [70, 105, 108, 101] 0

/-- Three freshly constructed items A, B, C at addresses 0, 1, 2. -/
def threeFresh : Heap :=
  let h := staticStore.set 0 (MenuItem.construct (staticStore 0) [65] 0)
  let h := h.set 1 (MenuItem.construct (h 1) [66] 0)
  h.set 2 (MenuItem.construct (h 2) [67] 0)

/-- The menu `root.addAfter(A); root.addRight(A)`: root and A (address 1, level
0) are joined by an after/before connection and by a right/left connection;
current is root. -/
def parallelLinks : MenuBackend :=
  let h := rootOnly.heap.set 1 (MenuItem.construct (rootOnly.heap 1) [65] 0)
  let h := (MenuItem.addAfter h 0 1).1
  let h := (MenuItem.addRight h 0 1).1
  { rootOnly with heap := h }

/-- The menu `rootThenA` with root's `onDown` hook (5) set as well. -/
def rootThenAWithDownHook : MenuBackend :=
  { rootThenA with heap := (MenuItem.onDown rootThenA.heap 0 (some 5)).1 }

/-! ## Basic facts -/

@[simp]
theorem Heap.set_same (h : Heap) (a : Nat) (v : MenuItem) : (h.set a v) a = v := by
  simp [Heap.set]

@[simp]
theorem Heap.set_other (h : Heap) (a x : Nat) (v : MenuItem) (hx : x ≠ a) :
    (h.set a v) x = h x := by
  simp [Heap.set, hx]

theorem fire_eq (s : MenuBackend) (cb : Cb) (ev : Event) :
    fire s cb ev = { s with log := s.log ++ callsOf cb ev s.current s.heap } := by
  cases cb <;> simp [fire, callsOf]

@[simp]
theorem fire_heap (s : MenuBackend) (cb : Cb) (ev : Event) : (fire s cb ev).heap = s.heap := by
  cases cb <;> rfl

@[simp]
theorem fire_current (s : MenuBackend) (cb : Cb) (ev : Event) :
    (fire s cb ev).current = s.current := by
  cases cb <;> rfl

@[simp]
theorem fire_root (s : MenuBackend) (cb : Cb) (ev : Event) : (fire s cb ev).root = s.root := by
  cases cb <;> rfl

@[simp]
theorem fire_cb_menuChange (s : MenuBackend) (cb : Cb) (ev : Event) :
    (fire s cb ev).cb_menuChange = s.cb_menuChange := by
  cases cb <;> rfl

@[simp]
theorem fire_cb_menuUse (s : MenuBackend) (cb : Cb) (ev : Event) :
    (fire s cb ev).cb_menuUse = s.cb_menuUse := by
  cases cb <;> rfl

@[simp]
theorem fire_cb_itemChange (s : MenuBackend) (cb : Cb) (ev : Event) :
    (fire s cb ev).cb_itemChange = s.cb_itemChange := by
  cases cb <;> rfl

theorem fire_log (s : MenuBackend) (cb : Cb) (ev : Event) :
    (fire s cb ev).log = s.log ++ callsOf cb ev s.current s.heap := by
  cases cb <;> simp [fire, callsOf]

/-! ## Linking -/

/-- C1: after `A.addAfter(B)` the `after` of A is B and the `before` of B is A,
and B is returned; likewise `addBefore` links A.before = B and B.after = A,
`addRight` links A.right = B and B.left = A, `addLeft` links A.left = B and
B.right = A, each returning B; and `add` is `addAfter`. -/
theorem add_links_both_ends (h : Heap) (a b : Nat) :
    (((MenuItem.addAfter h a b).1 a).after = some b ∧
      ((MenuItem.addAfter h a b).1 b).before = some a ∧ (MenuItem.addAfter h a b).2 = b) ∧
    (((MenuItem.addBefore h a b).1 a).before = some b ∧
      ((MenuItem.addBefore h a b).1 b).after = some a ∧ (MenuItem.addBefore h a b).2 = b) ∧
    (((MenuItem.addRight h a b).1 a).right = some b ∧
      ((MenuItem.addRight h a b).1 b).left = some a ∧ (MenuItem.addRight h a b).2 = b) ∧
    (((MenuItem.addLeft h a b).1 a).left = some b ∧
      ((MenuItem.addLeft h a b).1 b).right = some a ∧ (MenuItem.addLeft h a b).2 = b) ∧
    MenuItem.add h a b = MenuItem.addAfter h a b := by
  refine ⟨?_, ?_, ?_, ?_, rfl⟩ <;>
    (by_cases hab : a = b <;>
      simp [MenuItem.addAfter, MenuItem.addBefore, MenuItem.addRight, MenuItem.addLeft,
        inheritBack, Heap.set, hab] <;>
      split_ifs <;> simp_all)

/-- C2: for each linking call made on A with B as the added item, the `back`
of B afterwards is the `back` of A if B had none before the call and is B's
own earlier `back` otherwise, and the `back` of A is what it was. -/
theorem add_back_inherited_not_overwritten (op : LinkOp) (h : Heap) (a b : Nat) :
    ((op.run h a b).1 b).back
        = (if (h b).back = none then ((op.run h a b).1 a).back else (h b).back) ∧
    ((op.run h a b).1 a).back = (h a).back := by
  cases op <;>
    (by_cases hab : a = b <;>
      simp [LinkOp.run, MenuItem.add, MenuItem.addAfter, MenuItem.addBefore, MenuItem.addRight,
        MenuItem.addLeft, inheritBack, Heap.set, hab] <;>
      split_ifs <;> simp_all)

/-! ## Transitions -/

@[simp]
theorem setCurrent_none (s : MenuBackend) : s.setCurrent none = s := rfl

@[simp]
theorem setCurrent_current (s : MenuBackend) (n : Nat) : (s.setCurrent (some n)).current = n := rfl

@[simp]
theorem setCurrent_heap (s : MenuBackend) (next : Ptr) : (s.setCurrent next).heap = s.heap := by
  cases next <;> simp [MenuBackend.setCurrent]

theorem setCurrent_log (s : MenuBackend) (n : Nat) :
    (s.setCurrent (some n)).log = s.log
      ++ callsOf (s.heap s.current).cb_onChangeFrom (Event.change s.current n) s.current s.heap
      ++ callsOf (s.heap n).cb_onChangeTo (Event.change s.current n) s.current s.heap
      ++ callsOf s.cb_menuChange (Event.change s.current n) s.current s.heap := by
  simp [MenuBackend.setCurrent, fire_log]

/-- C3: `select(N)` is `setCurrent(&N)`; it invokes, each only if set and in
this order, the old current item's `onChangeFrom` hook, N's `onChangeTo` hook
and the global menu-change hook, every one with the event from old current to
N and while the backend still shows the old current item and the unchanged
items; afterwards current is N. -/
theorem select_fires_from_to_global_then_commits (s : MenuBackend) (n : Nat) :
    s.select n = s.setCurrent (some n) ∧
    (s.select n).log = s.log
      ++ callsOf (s.heap s.current).cb_onChangeFrom (Event.change s.current n) s.current s.heap
      ++ callsOf (s.heap n).cb_onChangeTo (Event.change s.current n) s.current s.heap
      ++ callsOf s.cb_menuChange (Event.change s.current n) s.current s.heap ∧
    (s.select n).current = n ∧
    (s.select n).heap = s.heap := by
  refine ⟨rfl, ?_, rfl, ?_⟩
  · exact setCurrent_log s n
  · exact setCurrent_heap s (some n)

theorem mem_callsOf {cb : Cb} {ev : Event} {cur : Nat} {heap : Heap} {c : Call}
    (hc : c ∈ callsOf cb ev cur heap) : c.ev = ev := by
  cases cb with
  | none => simp [callsOf] at hc
  | some f =>
    simp [callsOf] at hc
    rw [hc]

/-- C4: a movement whose reference is null on the current item (`before` for
`moveUp`, `after` for `moveDown`, `left`, `right`, `back`, `exit`) leaves the
backend as it was except for the one invocation of the movement's own
per-item hook when that is set: current and every item are unchanged and no
change callback is invoked. -/
theorem move_without_target_is_silent (s : MenuBackend) (mv : Move)
    (h : mv.target (s.heap s.current) = none) :
    mv.run s = { s with
        log := s.log ++
          callsOf (mv.hook (s.heap s.current)) (Event.move s.current) s.current s.heap } ∧
    (mv.run s).current = s.current ∧
    (mv.run s).heap = s.heap ∧
    ∀ c ∈ (mv.run s).log.drop s.log.length, ∀ f t, c.ev ≠ Event.change f t := by
  have key : mv.run s = { s with
        log := s.log ++
          callsOf (mv.hook (s.heap s.current)) (Event.move s.current) s.current s.heap } := by
    cases mv <;>
      simp [Move.target] at h <;>
      simp [Move.run, Move.hook, MenuBackend.moveUp, MenuBackend.moveDown, MenuBackend.moveLeft,
        MenuBackend.moveRight, MenuBackend.moveBack, MenuBackend.moveExit, MenuItem.moveUp,
        MenuItem.moveDown, MenuItem.moveLeft, MenuItem.moveRight, h, fire_eq, callsOf]
  refine ⟨key, ?_, ?_, ?_⟩
  · rw [key]
  · rw [key]
  · intro c hc f t
    rw [key] at hc
    simp only [List.drop_left] at hc
    rw [mem_callsOf hc]
    simp

/-- C4 at the backend that has only its root: `moveUp` does nothing. -/
theorem move_without_target_is_silent_witness :
    Move.up.target (rootOnly.heap rootOnly.current) = none ∧
    (Move.up.run rootOnly).current = rootOnly.current ∧
    (Move.up.run rootOnly).heap = rootOnly.heap :=
  ⟨rfl, (move_without_target_is_silent rootOnly Move.up rfl).2.1,
    (move_without_target_is_silent rootOnly Move.up rfl).2.2.1⟩

/-- A directional movement with a neighbour Y makes Y current and stamps the
`back` of Y with the item left. -/
theorem directional_move_reaches_and_stamps (s : MenuBackend) (d : Move) (y : Nat)
    (hd : d.directional = true) (h : d.target (s.heap s.current) = some y) :
    (d.run s).current = y ∧ ((d.run s).heap y).back = some s.current := by
  cases d <;> simp [Move.directional] at hd <;>
    simp [Move.target] at h <;>
    simp [Move.run, MenuBackend.moveUp, MenuBackend.moveDown, MenuBackend.moveLeft,
      MenuBackend.moveRight, MenuItem.moveUp, MenuItem.moveDown, MenuItem.moveLeft,
      MenuItem.moveRight, h, Heap.set] <;>
    (split_ifs <;> simp_all)

/-- C5: when the current item X has a neighbour Y in the direction of
`moveUp`, `moveDown`, `moveLeft` or `moveRight`, that movement makes Y current
with the `back` of Y equal to X, and a following `moveBack` makes X current
again. -/
theorem moveBack_undoes_directional_move (s : MenuBackend) (d : Move) (y : Nat)
    (hd : d.directional = true) (h : d.target (s.heap s.current) = some y) :
    (d.run s).current = y ∧
    ((d.run s).heap y).back = some s.current ∧
    (d.run s).moveBack.current = s.current := by
  obtain ⟨h1, h2⟩ := directional_move_reaches_and_stamps s d y hd h
  refine ⟨h1, h2, ?_⟩
  simp [MenuBackend.moveBack, h1, h2]

/-- C5 on the menu `root.addAfter(A)`: from root, `moveDown` then `moveBack`
ends at root. -/
theorem moveBack_undoes_directional_move_witness :
    rootThenA.current = 0 ∧
    (Move.down.run rootThenA).current = 1 ∧
    ((Move.down.run rootThenA).heap 1).back = some 0 ∧
    (Move.down.run rootThenA).moveBack.current = 0 :=
  ⟨rfl, moveBack_undoes_directional_move rootThenA Move.down 1 rfl rfl⟩

/-- The backend's `moveExit` writes to no item. -/
theorem moveExit_writes_no_item (s : MenuBackend) : s.moveExit.heap = s.heap := by
  simp [MenuBackend.moveExit]

/-- C6, on the menu `root.addExit(E)`: `moveExit` takes current from root
(address 0) to E (address 1), and the `back` of E is still null afterwards,
not root. -/
theorem moveExit_leaves_back_unstamped :
    rootWithExit.current = 0 ∧
    (rootWithExit.heap 0).exit = some 1 ∧
    rootWithExit.moveExit.current = 1 ∧
    (rootWithExit.moveExit.heap 1).back = none := by
  decide

/-! ## Shortkey search -/

/-- A step of the shortkey search on a null item pointer touches the absent
item: `canSearch` answers 0, the test `!= 1` passes, and `m->getAfter()` (for
`rSBefore`: `m->getRight()`) is evaluated. -/
theorem shortkey_search_null_deref (fuel : Nat) (s : MenuBackend) (k : Nat) :
    faultOf (MenuBackend.rSAfter (fuel + 1) s k none) = some Fault.nullDeref ∧
    faultOf (MenuBackend.rSRight (fuel + 1) s k none) = some Fault.nullDeref ∧
    faultOf (MenuBackend.rSLeft (fuel + 1) s k none) = some Fault.nullDeref ∧
    faultOf (MenuBackend.rSBefore (fuel + 1) s k none) = some Fault.nullDeref :=
  ⟨rfl, rfl, rfl, rfl⟩

/-- Where no item carries the shortkey, none of the four search functions
returns normally, whatever the depth allowed. -/
theorem shortkey_search_without_match_faults (k : Nat) (fuel : Nat) :
    ∀ (s : MenuBackend) (m : Ptr), (∀ a, (s.heap a).shortkey ≠ k) →
      faultOf (MenuBackend.rSAfter fuel s k m) ≠ none ∧
      faultOf (MenuBackend.rSRight fuel s k m) ≠ none ∧
      faultOf (MenuBackend.rSLeft fuel s k m) ≠ none ∧
      faultOf (MenuBackend.rSBefore fuel s k m) ≠ none := by
  induction fuel with
  | zero =>
    intro s m _
    simp [MenuBackend.rSAfter, MenuBackend.rSRight, MenuBackend.rSLeft, MenuBackend.rSBefore,
      faultOf]
  | succ n ih =>
    intro s m hk
    cases m with
    | none => simp [shortkey_search_null_deref]
    | some a =>
      have hA := (ih s (s.heap a).after hk).1
      have hR := (ih s (s.heap a).right hk).2.1
      have step : ∀ (r : Except Fault MenuBackend)
          (g : MenuBackend → Except Fault MenuBackend),
          faultOf r ≠ none → faultOf (r >>= g) ≠ none := by
        intro r g hr
        cases r with
        | error e => simp [bind, Except.bind, faultOf]
        | ok v => simp [faultOf] at hr
      refine ⟨?_, ?_, ?_, ?_⟩ <;>
        simp only [MenuBackend.rSAfter, MenuBackend.rSRight, MenuBackend.rSLeft,
          MenuBackend.rSBefore, MenuBackend.canSearch, hk a, if_false, deref] <;>
        simp only [bind, Except.bind] <;>
        first
          | exact step _ _ hA
          | exact step _ _ hR

/-- Where no item carries the shortkey, `use(char)` never returns normally. -/
theorem useShortkey_without_match_never_returns (s : MenuBackend) (k : Nat) (fuel : Nat)
    (hk : ∀ a, (s.heap a).shortkey ≠ k) : faultOf (s.useShortkey fuel k) ≠ none := by
  have hA := (shortkey_search_without_match_faults k fuel s (s.heap s.root).after hk).1
  simp only [MenuBackend.useShortkey, MenuBackend.recursiveSearch, MenuBackend.canSearch,
    hk s.root, if_false, deref]
  cases hr : MenuBackend.rSAfter fuel s k (s.heap s.root).after with
  | error e => simp [bind, Except.bind, faultOf, hr]
  | ok v => simp [hr, faultOf] at hA

/-- C7, on the menu `root.addAfter(A)` with A carrying 'X' (88) and current at
root: `use('X')` does not complete.  The search finds A, then goes on to
`rSRight(shortkey, root.getRight())` with a null pointer and evaluates
`m->getAfter()` on it; this holds for every depth bound of at least one. -/
theorem useShortkey_root_then_A_touches_null :
    rootThenA.current = rootThenA.root ∧
    (rootThenA.heap 0).after = some 1 ∧
    (rootThenA.heap 0).right = none ∧
    (rootThenA.heap 1).shortkey = 88 ∧
    (∀ fuel, faultOf (rootThenA.useShortkey (fuel + 1) 88) = some Fault.nullDeref) ∧
    faultOf (rootThenA.useShortkey 0 88) = some Fault.outOfFuel :=
  ⟨rfl, rfl, rfl, rfl, fun _ => rfl, rfl⟩

/-- C8, on the menu whose root has A, B, C, D (addresses 1 to 4) as its after,
right, left and before neighbour, all carrying 'X' (88): the first item with
the shortkey in depth-first order is A, yet `use('X')` ends with current at D,
the `back` of D is C rather than the item current before the call (root), and
the `back` of A, B and C has been written as well. -/
theorem useShortkey_does_not_stop_at_first_match :
    fourWithSameKey.current = 0 ∧
    (∀ fuel, firstWithShortkey (fuel + 1) fourWithSameKey 88 = some 1) ∧
    (∀ fuel, ((fourWithSameKey.useShortkey (fuel + 1) 88).toOption.map fun s => s.current)
      = some 4) ∧
    (∀ fuel, ((fourWithSameKey.useShortkey (fuel + 1) 88).toOption.map fun s =>
        [(s.heap 1).back, (s.heap 2).back, (s.heap 3).back, (s.heap 4).back])
      = some [some 0, some 1, some 2, some 3]) ∧
    [(fourWithSameKey.heap 1).back, (fourWithSameKey.heap 2).back,
      (fourWithSameKey.heap 3).back, (fourWithSameKey.heap 4).back] = [none, none, none, none] :=
  ⟨rfl, fun _ => rfl, fun _ => rfl, fun _ => rfl, rfl⟩

/-- C9, on the backend that has only its root, where no item carries 'X'
(88): `use('X')` evaluates `m->getAfter()` on the null pointer
`root.getAfter()` and does not complete, for every depth bound of at least
one. -/
theorem useShortkey_without_match_touches_null :
    (∀ a, (rootOnly.heap a).shortkey ≠ 88) ∧
    (∀ a, (rootOnly.heap a).after = none ∧ (rootOnly.heap a).right = none ∧
      (rootOnly.heap a).left = none ∧ (rootOnly.heap a).before = none) ∧
    (∀ fuel, faultOf (rootOnly.useShortkey (fuel + 1) 88) = some Fault.nullDeref) ∧
    faultOf (rootOnly.useShortkey 0 88) = some Fault.outOfFuel := by
  refine ⟨?_, ?_, fun _ => rfl, rfl⟩
  · intro a
    by_cases ha : a = 0 <;>
      simp [rootOnly, MenuBackend.construct, MenuItem.construct, Heap.set, staticStore,
        MenuItem.zeroed, ha]
  · intro a
    by_cases ha : a = 0 <;>
      simp [rootOnly, MenuBackend.construct, MenuItem.construct, Heap.set, staticStore,
        MenuItem.zeroed, ha]

/-! ## Level search -/

/-- On the menu `root.addAfter(A); A.addRight(B)` with levels 0, 1, 2,
`moveToLevel(2)` from root ends at B, the first item at level 2 in depth-first
order. -/
theorem moveToLevel_on_level_chain :
    levelChain.current = 0 ∧
    (∀ fuel, firstAtLevel (fuel + 2) levelChain 2 = some 2) ∧
    (∀ fuel, ((levelChain.moveToLevel (fuel + 2) 2).toOption.map fun s => s.current) = some 2) :=
  ⟨rfl, fun _ => rfl, fun _ => rfl⟩

/-- C10, on the menu `root.addAfter(A); root.addRight(B)` with A (address 1)
and B (address 2) both at level 2 and current at root: the first item at
level 2 in depth-first order is A, yet `moveToLevel(2)` ends with current at
B, having made A current on the way. -/
theorem moveToLevel_does_not_stop_at_first_match :
    twoAtLevelTwo.current = 0 ∧
    (twoAtLevelTwo.heap 1).level = 2 ∧
    (twoAtLevelTwo.heap 2).level = 2 ∧
    (∀ fuel, firstAtLevel (fuel + 1) twoAtLevelTwo 2 = some 1) ∧
    (∀ fuel, ((twoAtLevelTwo.moveToLevel (fuel + 1) 2).toOption.map fun s => s.current)
      = some 2) ∧
    (∀ fuel, ((twoAtLevelTwo.moveToLevel (fuel + 1) 2).toOption.map fun s =>
        s.log.map Call.brief)
      = some [(101, Event.change 0 1, 0), (101, Event.change 1 2, 1),
          (101, Event.change 0 2, 2)]) :=
  ⟨rfl, rfl, rfl, fun _ => rfl, fun _ => rfl, fun _ => rfl⟩

/-! ## The level search as a fold over the items it meets -/

/-- Making the items of a list current one after the other. -/
theorem foldl_setCurrent_heap (ms : List Nat) (s : MenuBackend) :
    (ms.foldl (fun s a => s.setCurrent (some a)) s).heap = s.heap := by
  induction ms generalizing s with
  | nil => rfl
  | cons a t ih => simp [List.foldl, ih]

theorem level_search_eq (level : Nat) (fuel : Nat) :
    ∀ (via : Via) (s : MenuBackend) (m : Ptr), finiteVia fuel s.heap via m = true →
      MenuBackend.rSLVia via fuel s level m
        = .ok ((matchesVia (fun i => decide (i.level = level)) fuel s.heap via m).foldl
            (fun s a => s.setCurrent (some a)) s) := by
  induction fuel with
  | zero =>
    intro via s m h
    simp [finiteVia] at h
  | succ n ih =>
    intro via s m h
    cases m with
    | none => cases via <;> rfl
    | some a =>
      by_cases hl : (s.heap a).level = level
      · cases via <;>
          simp [MenuBackend.rSLVia, MenuBackend.rSLAfter, MenuBackend.rSLRight,
            MenuBackend.rSLLeft, MenuBackend.rSLBefore, matchesVia, hl]
      · have step : ∀ (v : Via) (p : Ptr) (s0 : MenuBackend), s0.heap = s.heap →
            finiteVia n s.heap v p = true →
            MenuBackend.rSLVia v n s0 level p
              = .ok ((matchesVia (fun i => decide (i.level = level)) n s.heap v p).foldl
                  (fun s a => s.setCurrent (some a)) s0) := by
          intro v p s0 hs hf
          have := ih v s0 p (by rw [hs]; exact hf)
          rw [this, hs]
        have sA := fun p s0 hs hf => step .after p s0 hs hf
        have sR := fun p s0 hs hf => step .right p s0 hs hf
        have sL := fun p s0 hs hf => step .left p s0 hs hf
        have sB := fun p s0 hs hf => step .before p s0 hs hf
        simp only [MenuBackend.rSLVia] at sA sR sL sB
        cases via <;>
          simp only [finiteVia, Bool.and_eq_true] at h <;>
          obtain ⟨⟨h1, h2⟩, h3⟩ := h <;>
          simp only [MenuBackend.rSLVia, MenuBackend.rSLAfter, MenuBackend.rSLRight,
            MenuBackend.rSLLeft, MenuBackend.rSLBefore, matchesVia, hl, if_false,
            decide_False, Bool.false_eq_true, List.foldl_append] <;>
          simp only [bind, Except.bind, foldl_setCurrent_heap, sA, sR, sL, sB, h1, h2, h3]

theorem foldl_setCurrent_current (ms : List Nat) (s : MenuBackend) :
    (ms.foldl (fun s a => s.setCurrent (some a)) s).current = ms.getLast?.getD s.current := by
  induction ms generalizing s with
  | nil => rfl
  | cons a t ih =>
    rw [List.foldl, ih, List.getLast?_cons]
    cases t.getLast? <;> simp

/-! ## The shortkey search as a fold over the items it meets -/

theorem foldl_found_current (ms : List Nat) (s : MenuBackend) :
    (ms.foldl MenuBackend.foundShortkeyItem s).current = ms.getLast?.getD s.current := by
  induction ms generalizing s with
  | nil => rfl
  | cons a t ih =>
    rw [List.foldl, ih, List.getLast?_cons]
    cases t.getLast? <;> simp [MenuBackend.foundShortkeyItem]

theorem found_eraseBack (s : MenuBackend) (m x : Nat) :
    ((s.foundShortkeyItem m).heap x).eraseBack = (s.heap x).eraseBack := by
  by_cases hx : x = m <;> simp [MenuBackend.foundShortkeyItem, Heap.set, hx, MenuItem.eraseBack]

theorem foldl_found_eraseBack (ms : List Nat) (s : MenuBackend) (x : Nat) :
    ((ms.foldl MenuBackend.foundShortkeyItem s).heap x).eraseBack = (s.heap x).eraseBack := by
  induction ms generalizing s with
  | nil => rfl
  | cons a t ih => rw [List.foldl, ih, found_eraseBack]

theorem foldl_found_heap_of_not_mem (ms : List Nat) (s : MenuBackend) (x : Nat) (hx : x ∉ ms) :
    (ms.foldl MenuBackend.foundShortkeyItem s).heap x = s.heap x := by
  induction ms generalizing s with
  | nil => rfl
  | cons a t ih =>
    simp only [List.mem_cons, not_or] at hx
    rw [List.foldl, ih _ hx.2]
    simp [MenuBackend.foundShortkeyItem, Heap.set, hx.1]

theorem links_of_eraseBack {i j : MenuItem} (h : i.eraseBack = j.eraseBack) :
    i.after = j.after ∧ i.right = j.right ∧ i.left = j.left ∧ i.before = j.before ∧
    i.shortkey = j.shortkey ∧ i.level = j.level := by
  have e1 : i.eraseBack.after = j.eraseBack.after := by rw [h]
  have e2 : i.eraseBack.right = j.eraseBack.right := by rw [h]
  have e3 : i.eraseBack.left = j.eraseBack.left := by rw [h]
  have e4 : i.eraseBack.before = j.eraseBack.before := by rw [h]
  have e5 : i.eraseBack.shortkey = j.eraseBack.shortkey := by rw [h]
  have e6 : i.eraseBack.level = j.eraseBack.level := by rw [h]
  exact ⟨e1, e2, e3, e4, e5, e6⟩

theorem matchesVia_congr (p : MenuItem → Bool) (hp : ∀ i j : MenuItem, i.eraseBack = j.eraseBack → p i = p j)
    (h h' : Heap) (hh : ∀ x, (h' x).eraseBack = (h x).eraseBack) (fuel : Nat) :
    ∀ (via : Via) (m : Ptr), matchesVia p fuel h' via m = matchesVia p fuel h via m := by
  induction fuel with
  | zero => intro via m; simp [matchesVia]
  | succ n ih =>
    intro via m
    cases m with
    | none => simp [matchesVia]
    | some a =>
      obtain ⟨l1, l2, l3, l4, -, -⟩ := links_of_eraseBack (hh a)
      cases via <;> simp [matchesVia, ih, l1, l2, l3, l4, hp _ _ (hh a)]

theorem bind_ok_elim {r : Except Fault MenuBackend} {g : MenuBackend → Except Fault MenuBackend}
    {s' : MenuBackend} (h : (r >>= g) = .ok s') : ∃ s1, r = .ok s1 ∧ g s1 = .ok s' := by
  cases r with
  | error e => simp [bind, Except.bind] at h
  | ok v => exact ⟨v, rfl, h⟩

theorem ok_bind (x : Ptr) (g : Ptr → Except Fault MenuBackend) :
    ((Except.ok x : Except Fault Ptr) >>= g) = g x := rfl

theorem shortkey_search_eq (k : Nat) (fuel : Nat) :
    ∀ (via : Via) (s s' : MenuBackend) (m : Ptr), MenuBackend.rSVia via fuel s k m = .ok s' →
      s' = (matchesVia (fun i => decide (i.shortkey = k)) fuel s.heap via m).foldl
        MenuBackend.foundShortkeyItem s := by
  induction fuel with
  | zero =>
    intro via s s' m h
    cases via <;>
      simp [MenuBackend.rSVia, MenuBackend.rSAfter, MenuBackend.rSRight, MenuBackend.rSLeft,
        MenuBackend.rSBefore] at h
  | succ n ih =>
    intro via s s' m h
    cases m with
    | none =>
      cases via <;>
        simp [MenuBackend.rSVia, MenuBackend.rSAfter, MenuBackend.rSRight, MenuBackend.rSLeft,
          MenuBackend.rSBefore, MenuBackend.canSearch, deref, bind, Except.bind] at h
    | some a =>
      by_cases hk : (s.heap a).shortkey = k
      · cases via <;>
          simp [MenuBackend.rSVia, MenuBackend.rSAfter, MenuBackend.rSRight, MenuBackend.rSLeft,
            MenuBackend.rSBefore, MenuBackend.canSearch, hk] at h <;>
          simp [matchesVia, hk, ← h]
      · have step : ∀ (v : Via) (f : MenuItem → Ptr) (s0 s1 : MenuBackend),
            (∀ x, (s0.heap x).eraseBack = (s.heap x).eraseBack) →
            (∀ i j : MenuItem, i.eraseBack = j.eraseBack → f i = f j) →
            MenuBackend.rSVia v n s0 k (f (s0.heap a)) = .ok s1 →
            s1 = (matchesVia (fun i => decide (i.shortkey = k)) n s.heap v (f (s.heap a))).foldl
                MenuBackend.foundShortkeyItem s0 ∧
              ∀ x, (s1.heap x).eraseBack = (s.heap x).eraseBack := by
          intro v f s0 s1 hs hf hr
          have e := ih v s0 s1 _ hr
          rw [matchesVia_congr _ (fun i j hij => by
            simp [(links_of_eraseBack hij).2.2.2.2.1]) s.heap s0.heap hs, hf _ _ (hs a)] at e
          refine ⟨e, fun x => ?_⟩
          rw [e, foldl_found_eraseBack, hs]
        have fA : ∀ i j : MenuItem, i.eraseBack = j.eraseBack → i.after = j.after :=
          fun i j hij => (links_of_eraseBack hij).1
        have fR : ∀ i j : MenuItem, i.eraseBack = j.eraseBack → i.right = j.right :=
          fun i j hij => (links_of_eraseBack hij).2.1
        have fL : ∀ i j : MenuItem, i.eraseBack = j.eraseBack → i.left = j.left :=
          fun i j hij => (links_of_eraseBack hij).2.2.1
        have fB : ∀ i j : MenuItem, i.eraseBack = j.eraseBack → i.before = j.before :=
          fun i j hij => (links_of_eraseBack hij).2.2.2.1
        cases via <;>
          simp only [MenuBackend.rSVia, MenuBackend.rSAfter, MenuBackend.rSRight,
            MenuBackend.rSLeft, MenuBackend.rSBefore, MenuBackend.canSearch, hk, if_false,
            deref] at h <;>
          simp only [ne_eq, Int.reduceNeg, Int.reduceEq, not_false_eq_true, if_true,
            ok_bind] at h
        · obtain ⟨s1, h1, h⟩ := bind_ok_elim h
          obtain ⟨s2, h2, h3⟩ := bind_ok_elim h
          obtain ⟨e1, g1⟩ := step .after MenuItem.after s s1 (fun _ => rfl) fA h1
          obtain ⟨e2, g2⟩ := step .right MenuItem.right s1 s2 g1 fR h2
          obtain ⟨e3, -⟩ := step .left MenuItem.left s2 s' g2 fL h3
          rw [e3, e2, e1]
          simp [matchesVia, hk]
        · obtain ⟨s1, h1, h⟩ := bind_ok_elim h
          obtain ⟨s2, h2, h3⟩ := bind_ok_elim h
          obtain ⟨e1, g1⟩ := step .after MenuItem.after s s1 (fun _ => rfl) fA h1
          obtain ⟨e2, g2⟩ := step .right MenuItem.right s1 s2 g1 fR h2
          obtain ⟨e3, -⟩ := step .before MenuItem.before s2 s' g2 fB h3
          rw [e3, e2, e1]
          simp [matchesVia, hk]
        · obtain ⟨s1, h1, h⟩ := bind_ok_elim h
          obtain ⟨s2, h2, h3⟩ := bind_ok_elim h
          obtain ⟨e1, g1⟩ := step .after MenuItem.after s s1 (fun _ => rfl) fA h1
          obtain ⟨e2, g2⟩ := step .left MenuItem.left s1 s2 g1 fL h2
          obtain ⟨e3, -⟩ := step .before MenuItem.before s2 s' g2 fB h3
          rw [e3, e2, e1]
          simp [matchesVia, hk]
        · obtain ⟨s1, h1, h⟩ := bind_ok_elim h
          obtain ⟨s2, h2, h3⟩ := bind_ok_elim h
          obtain ⟨e1, g1⟩ := step .right MenuItem.right s s1 (fun _ => rfl) fR h1
          obtain ⟨e2, g2⟩ := step .left MenuItem.left s1 s2 g1 fL h2
          obtain ⟨e3, -⟩ := step .before MenuItem.before s2 s' g2 fB h3
          rw [e3, e2, e1]
          simp [matchesVia, hk]

theorem shortkey_search_ok_has_match (k : Nat) (fuel : Nat) :
    ∀ (via : Via) (s s' : MenuBackend) (m : Ptr), MenuBackend.rSVia via fuel s k m = .ok s' →
      matchesVia (fun i => decide (i.shortkey = k)) fuel s.heap via m ≠ [] := by
  induction fuel with
  | zero =>
    intro via s s' m h
    cases via <;>
      simp [MenuBackend.rSVia, MenuBackend.rSAfter, MenuBackend.rSRight, MenuBackend.rSLeft,
        MenuBackend.rSBefore] at h
  | succ n ih =>
    intro via s s' m h
    cases m with
    | none =>
      cases via <;>
        simp [MenuBackend.rSVia, MenuBackend.rSAfter, MenuBackend.rSRight, MenuBackend.rSLeft,
          MenuBackend.rSBefore, MenuBackend.canSearch, deref, bind, Except.bind] at h
    | some a =>
      by_cases hk : (s.heap a).shortkey = k
      · cases via <;> simp [matchesVia, hk]
      · cases via <;>
          simp only [MenuBackend.rSVia, MenuBackend.rSAfter, MenuBackend.rSRight,
            MenuBackend.rSLeft, MenuBackend.rSBefore, MenuBackend.canSearch, hk, if_false,
            deref] at h <;>
          simp only [ne_eq, Int.reduceNeg, Int.reduceEq, not_false_eq_true, if_true,
            ok_bind] at h <;>
          obtain ⟨s1, h1, -⟩ := bind_ok_elim h
        · have := ih .after s s1 _ h1
          simp [matchesVia, hk, this]
        · have := ih .after s s1 _ h1
          simp [matchesVia, hk, this]
        · have := ih .after s s1 _ h1
          simp [matchesVia, hk, this]
        · have := ih .right s s1 _ h1
          simp [matchesVia, hk, this]

/-- The shortkey search from root, when it returns, has marked the items of
`shortkeyMatches` found one after the other. -/
theorem recursiveSearch_eq (fuel : Nat) (s s' : MenuBackend) (k : Nat)
    (h : s.recursiveSearch fuel k (some s.root) = .ok s') :
    s' = (shortkeyMatches fuel s k).foldl MenuBackend.foundShortkeyItem s ∧
    shortkeyMatches fuel s k ≠ [] := by
  by_cases hk : (s.heap s.root).shortkey = k
  · simp [MenuBackend.recursiveSearch, MenuBackend.canSearch, hk] at h
    simp [shortkeyMatches, hk, ← h]
  · simp only [MenuBackend.recursiveSearch, MenuBackend.canSearch, hk, if_false, deref] at h
    simp only [ne_eq, Int.reduceNeg, Int.reduceEq, not_false_eq_true, if_true, ok_bind] at h
    obtain ⟨s1, h1, h⟩ := bind_ok_elim h
    obtain ⟨s2, h2, h⟩ := bind_ok_elim h
    obtain ⟨s3, h3, h4⟩ := bind_ok_elim h
    have n1 := shortkey_search_ok_has_match k fuel .after s s1 _ h1
    have e1 := shortkey_search_eq k fuel .after s s1 _ h1
    have g1 : ∀ x, (s1.heap x).eraseBack = (s.heap x).eraseBack := by
      intro x; rw [e1, foldl_found_eraseBack]
    have e2 := shortkey_search_eq k fuel .right s1 s2 _ h2
    have g2 : ∀ x, (s2.heap x).eraseBack = (s.heap x).eraseBack := by
      intro x; rw [e2, foldl_found_eraseBack, g1]
    have e3 := shortkey_search_eq k fuel .left s2 s3 _ h3
    have g3 : ∀ x, (s3.heap x).eraseBack = (s.heap x).eraseBack := by
      intro x; rw [e3, foldl_found_eraseBack, g2]
    have e4 := shortkey_search_eq k fuel .before s3 s' _ h4
    have hp : ∀ i j : MenuItem, i.eraseBack = j.eraseBack →
        (fun i : MenuItem => decide (i.shortkey = k)) i
          = (fun i : MenuItem => decide (i.shortkey = k)) j := by
      intro i j hij
      simp [(links_of_eraseBack hij).2.2.2.2.1]
    rw [matchesVia_congr _ hp s.heap s1.heap g1, (links_of_eraseBack (g1 s.root)).2.1] at e2
    rw [matchesVia_congr _ hp s.heap s2.heap g2, (links_of_eraseBack (g2 s.root)).2.2.1] at e3
    rw [matchesVia_congr _ hp s.heap s3.heap g3, (links_of_eraseBack (g3 s.root)).2.2.2.1] at e4
    constructor
    · rw [e4, e3, e2, e1]
      simp [shortkeyMatches, hk, matchesFrom]
    · simp [shortkeyMatches, hk, matchesFrom, n1]

@[simp]
theorem use_heap (s : MenuBackend) : s.use.heap = s.heap := by
  simp [MenuBackend.use]

@[simp]
theorem use_current (s : MenuBackend) : s.use.current = s.current := by
  simp [MenuBackend.use]

theorem use_log (s : MenuBackend) :
    s.use.log = s.log ++ callsOf (s.heap s.current).cb_onUse (Event.use s.current) s.current s.heap
      ++ callsOf s.cb_menuUse (Event.use s.current) s.current s.heap := by
  simp [MenuBackend.use, fire_log]

theorem foldl_found_log (ms : List Nat) (s : MenuBackend) :
    (ms.foldl MenuBackend.foundShortkeyItem s).log = s.log ∧
    (ms.foldl MenuBackend.foundShortkeyItem s).cb_menuUse = s.cb_menuUse := by
  induction ms generalizing s with
  | nil => exact ⟨rfl, rfl⟩
  | cons a t ih =>
    rw [List.foldl]
    exact ih _

/-- What the code does whenever `use(char)` returns: the items carrying the
shortkey that the search met (depth-first, not descending below an item that
carries it) form a non-empty list and every one of them has been marked as
found in turn; current is the last of them, its `back` is the one met before
it (the item current before the call only if it is the sole one), items
outside the list are untouched, no item has any field other than `back`
changed, and exactly the use hooks of the new current item are invoked. -/
theorem useShortkey_ends_at_last_match (fuel : Nat) (s : MenuBackend) (k : Nat)
    (hok : faultOf (s.useShortkey fuel k) = none) :
    ∃ s' init last,
      s.useShortkey fuel k = .ok s' ∧
      shortkeyMatches fuel s k = init ++ [last] ∧
      s'.current = last ∧
      (s'.heap last).back = some (init.getLast?.getD s.current) ∧
      (∀ x, x ∉ init → x ≠ last → s'.heap x = s.heap x) ∧
      (∀ x, (s'.heap x).eraseBack = (s.heap x).eraseBack) ∧
      s'.log = s.log ++ callsOf (s.heap last).cb_onUse (Event.use last) last s'.heap
        ++ callsOf s.cb_menuUse (Event.use last) last s'.heap := by
  cases hr : s.recursiveSearch fuel k (some s.root) with
  | error e => simp [MenuBackend.useShortkey, hr, bind, Except.bind, faultOf] at hok
  | ok s1 =>
    obtain ⟨e1, hne⟩ := recursiveSearch_eq fuel s s1 k hr
    obtain ⟨init, last, hl⟩ : ∃ init last, shortkeyMatches fuel s k = init ++ [last] :=
      ⟨_, _, (List.dropLast_append_getLast hne).symm⟩
    have hcur : s1.current = last := by
      rw [e1, foldl_found_current, hl]; simp
    have hback : (s1.heap last).back = some (init.getLast?.getD s.current) := by
      rw [e1, hl, List.foldl_append]
      simp [MenuBackend.foundShortkeyItem, foldl_found_current]
    have herase : ∀ x, (s1.heap x).eraseBack = (s.heap x).eraseBack := by
      intro x; rw [e1, foldl_found_eraseBack]
    refine ⟨s1.use, init, last, ?_, hl, ?_, ?_, ?_, ?_, ?_⟩
    · simp [MenuBackend.useShortkey, hr, bind, Except.bind, pure, Except.pure]
    · simpa using hcur
    · simpa using hback
    · intro x hx1 hx2
      rw [use_heap, e1]
      apply foldl_found_heap_of_not_mem
      rw [hl]
      simp [hx1, hx2]
    · intro x
      rw [use_heap]
      exact herase x
    · have hu : (s1.heap last).cb_onUse = (s.heap last).cb_onUse := by
        have := herase last
        have e : (s1.heap last).eraseBack.cb_onUse = (s.heap last).eraseBack.cb_onUse := by
          rw [this]
        exact e
      rw [use_log, hcur, hu, use_heap]
      rw [e1, (foldl_found_log _ s).1, (foldl_found_log _ s).2]

/-- The same on the menu whose root has four neighbours carrying 'X': the
call returns with current at D, the last item met. -/
theorem useShortkey_ends_at_last_match_witness :
    faultOf (fourWithSameKey.useShortkey 1 88) = none ∧
    shortkeyMatches 1 fourWithSameKey 88 = [1, 2, 3, 4] ∧
    ∃ s' init last,
      fourWithSameKey.useShortkey 1 88 = .ok s' ∧
      shortkeyMatches 1 fourWithSameKey 88 = init ++ [last] ∧
      s'.current = last ∧
      (s'.heap last).back = some (init.getLast?.getD fourWithSameKey.current) ∧
      (∀ x, x ∉ init → x ≠ last → s'.heap x = fourWithSameKey.heap x) ∧
      (∀ x, (s'.heap x).eraseBack = (fourWithSameKey.heap x).eraseBack) ∧
      s'.log = fourWithSameKey.log
        ++ callsOf (fourWithSameKey.heap last).cb_onUse (Event.use last) last s'.heap
        ++ callsOf fourWithSameKey.cb_menuUse (Event.use last) last s'.heap :=
  ⟨rfl, rfl, useShortkey_ends_at_last_match 1 fourWithSameKey 88 rfl⟩

/-! ## Where the level search ends -/

/-- The first item of the pruned list is the first item satisfying `p` in the
full depth-first order. -/
theorem head_matchesVia (p : MenuItem → Bool) (h : Heap) (fuel : Nat) :
    ∀ (via : Via) (m : Ptr),
      (matchesVia p fuel h via m).head? = (searchOrderVia fuel h via m).find? fun a => p (h a) := by
  induction fuel with
  | zero => intro via m; simp [matchesVia, searchOrderVia]
  | succ n ih =>
    intro via m
    cases m with
    | none => simp [matchesVia, searchOrderVia]
    | some a =>
      by_cases hp : p (h a) = true
      · cases via <;> simp [matchesVia, searchOrderVia, hp]
      · cases via <;> simp [matchesVia, searchOrderVia, hp, ih]

theorem head_levelMatches (fuel : Nat) (s : MenuBackend) (level : Nat) :
    (levelMatches fuel s level).head? = firstAtLevel fuel s level := by
  simp [levelMatches, firstAtLevel, matchesFrom, subtreeOrder, head_matchesVia]

/-- On a finite menu the level search returns, having made the items of
`levelMatches` current one after the other. -/
theorem recursiveSearchForLevel_eq (fuel : Nat) (s : MenuBackend) (level : Nat)
    (hfin : finiteFrom fuel s.heap s.current = true) :
    s.recursiveSearchForLevel fuel level (some s.current)
      = .ok ((levelMatches fuel s level).foldl (fun s a => s.setCurrent (some a)) s) := by
  simp only [finiteFrom, Bool.and_eq_true] at hfin
  obtain ⟨⟨⟨h1, h2⟩, h3⟩, h4⟩ := hfin
  have step : ∀ (v : Via) (p : Ptr) (s0 : MenuBackend), s0.heap = s.heap →
      finiteVia fuel s.heap v p = true →
      MenuBackend.rSLVia v fuel s0 level p
        = .ok ((matchesVia (fun i => decide (i.level = level)) fuel s.heap v p).foldl
            (fun s a => s.setCurrent (some a)) s0) := by
    intro v p s0 hs hf
    have := level_search_eq level fuel v s0 p (by rw [hs]; exact hf)
    rw [this, hs]
  have sA := fun p s0 hs hf => step .after p s0 hs hf
  have sR := fun p s0 hs hf => step .right p s0 hs hf
  have sL := fun p s0 hs hf => step .left p s0 hs hf
  have sB := fun p s0 hs hf => step .before p s0 hs hf
  simp only [MenuBackend.rSLVia] at sA sR sL sB
  simp only [MenuBackend.recursiveSearchForLevel, levelMatches, matchesFrom, List.foldl_append]
  simp only [bind, Except.bind, foldl_setCurrent_heap, sA, sR, sL, sB, h1, h2, h3, h4]

/-- What the code does on a finite menu in which some item met by the search
is at level L: `moveToLevel(L)` returns with current at the last item at level
L that the search meets (depth-first from the current item over its after-,
right-, left- and before-subtree, not descending below an item at level L),
having called `setCurrent` on every such item on the way; no item is
changed. -/
theorem moveToLevel_ends_at_last_match (fuel : Nat) (s : MenuBackend) (level : Nat)
    (hfin : finiteFrom fuel s.heap s.current = true)
    (hsome : firstAtLevel fuel s level ≠ none) :
    ∃ s', s.moveToLevel fuel level = .ok s' ∧
      (levelMatches fuel s level).getLast? = some s'.current ∧
      s'.heap = s.heap := by
  have hs := recursiveSearchForLevel_eq fuel s level hfin
  have hne : levelMatches fuel s level ≠ [] := by
    intro h0
    rw [← head_levelMatches, h0] at hsome
    exact hsome rfl
  have hlast : (levelMatches fuel s level).getLast?
      = some ((levelMatches fuel s level).foldl (fun s a => s.setCurrent (some a)) s).current := by
    rw [foldl_setCurrent_current]
    cases hl : (levelMatches fuel s level).getLast? with
    | none => exact absurd (List.getLast?_eq_none_iff.mp hl) hne
    | some a => rfl
  simp only [MenuBackend.moveToLevel, hs, bind, Except.bind, pure, Except.pure]
  split_ifs
  · exact ⟨_, rfl, by simpa using hlast, by simp [foldl_setCurrent_heap]⟩
  · exact ⟨_, rfl, hlast, foldl_setCurrent_heap _ s⟩

/-- The same on the menu with levels 0, 1, 2 linked via after and right,
where only one item is at level 2: `moveToLevel(2)` from the level-0 item ends
at that item. -/
theorem moveToLevel_ends_at_last_match_witness :
    finiteFrom 3 levelChain.heap levelChain.current = true ∧
    firstAtLevel 3 levelChain 2 = some 2 ∧
    levelMatches 3 levelChain 2 = [2] ∧
    ∃ s', levelChain.moveToLevel 3 2 = .ok s' ∧
      (levelMatches 3 levelChain 2).getLast? = some s'.current ∧
      s'.heap = levelChain.heap :=
  ⟨rfl, rfl, rfl, moveToLevel_ends_at_last_match 3 levelChain 2 rfl (by decide)⟩

/-! ## Level search: callbacks and the case of no match -/

/-- Whenever the level search meets exactly one item M at the level and M is
not the current item C, `moveToLevel` invokes the change callbacks of one
`setCurrent(M)` and then the same three once more, the backend by then
showing M. -/
theorem moveToLevel_single_match_fires_twice (fuel : Nat) (s : MenuBackend) (level m : Nat)
    (hfin : finiteFrom fuel s.heap s.current = true)
    (hm : levelMatches fuel s level = [m]) (hne : m ≠ s.current) :
    ∃ s', s.moveToLevel fuel level = .ok s' ∧ s'.current = m ∧
      s'.log = (s.setCurrent (some m)).log
        ++ callsOf (s.heap s.current).cb_onChangeFrom (Event.change s.current m) m s.heap
        ++ callsOf (s.heap m).cb_onChangeTo (Event.change s.current m) m s.heap
        ++ callsOf s.cb_menuChange (Event.change s.current m) m s.heap := by
  have hs := recursiveSearchForLevel_eq fuel s level hfin
  rw [hm] at hs
  simp only [List.foldl] at hs
  have hc : s.current ≠ (s.setCurrent (some m)).current := fun h => hne h.symm
  have e : s.moveToLevel fuel level
      = .ok (fire (fire (fire (s.setCurrent (some m)) (s.heap s.current).cb_onChangeFrom
          (Event.change s.current m)) (s.heap m).cb_onChangeTo (Event.change s.current m))
          s.cb_menuChange (Event.change s.current m)) := by
    simp only [MenuBackend.moveToLevel, hs, bind, Except.bind, pure, Except.pure, hc, ne_eq,
      not_false_eq_true, if_true]
    simp [MenuBackend.setCurrent]
  refine ⟨_, e, ?_, ?_⟩
  · simp
  · simp [fire_log, MenuBackend.setCurrent]

/-- C11, on the menu `root.addAfter(M)` with M the only item at level 1 and
current at root: `moveToLevel(1)` ends at M but invokes every change callback
twice, first from `setCurrent(M)` inside the search (the backend still showing
root) and then again from the tail of `moveToLevel` (the backend already
showing M); one `setCurrent(M)`, as `select(M)` makes it, invokes each once. -/
theorem moveToLevel_fires_change_callbacks_twice :
    rootThenLevelOne.current = 0 ∧
    (∀ a, (rootThenLevelOne.heap a).level = 1 → a = 1) ∧
    (∀ fuel, ((rootThenLevelOne.moveToLevel (fuel + 2) 1).toOption.map fun s =>
        (s.current, s.log.map Call.brief))
      = some (1, [(9, Event.change 0 1, 0), (8, Event.change 0 1, 0),
          (101, Event.change 0 1, 0), (9, Event.change 0 1, 1), (8, Event.change 0 1, 1),
          (101, Event.change 0 1, 1)])) ∧
    (rootThenLevelOne.select 1).log.map Call.brief
      = [(9, Event.change 0 1, 0), (8, Event.change 0 1, 0), (101, Event.change 0 1, 0)] := by
  refine ⟨rfl, ?_, fun _ => rfl, rfl⟩
  intro a
  by_cases h0 : a = 0
  · subst h0; decide
  · by_cases h1 : a = 1
    · intro _; exact h1
    · simp [rootThenLevelOne, MenuItem.addAfter, MenuItem.onChangeFrom, MenuItem.onChangeTo,
        inheritBack, Heap.set, h0, h1, rootOnly, MenuBackend.construct, staticStore,
        MenuItem.zeroed, MenuItem.constructWithBackend, MenuItem.construct]

/-- C12: on a finite menu in which no item met by the level search is at
level L, `moveToLevel(L)` returns the backend exactly as it was (current, every
item, and the call log), and so does every `moveRelativeLevels(delta)` whose
target level is L. -/
theorem moveToLevel_without_match_changes_nothing (fuel : Nat) (s : MenuBackend) (level : Nat)
    (hfin : finiteFrom fuel s.heap s.current = true)
    (hnone : firstAtLevel fuel s level = none) :
    s.moveToLevel fuel level = .ok s ∧
    ∀ delta : Int, ((delta + (s.heap s.current).level) % 256).toNat = level →
      s.moveRelativeLevels fuel delta = .ok s := by
  have hnil : levelMatches fuel s level = [] := by
    rw [← head_levelMatches] at hnone
    exact List.head?_eq_none_iff.mp hnone
  have h1 : s.moveToLevel fuel level = .ok s := by
    simp [MenuBackend.moveToLevel, recursiveSearchForLevel_eq fuel s level hfin, hnil, bind,
      Except.bind, pure, Except.pure]
  refine ⟨h1, ?_⟩
  intro delta hd
  simp only [MenuBackend.moveRelativeLevels, hd, h1]

/-- C12 on the menu with levels 0, 1, 2: no item is at level 7. -/
theorem moveToLevel_without_match_changes_nothing_witness :
    finiteFrom 3 levelChain.heap levelChain.current = true ∧
    firstAtLevel 3 levelChain 7 = none ∧
    levelChain.moveToLevel 3 7 = .ok levelChain ∧
    ∀ delta : Int, ((delta + (levelChain.heap levelChain.current).level) % 256).toNat = 7 →
      levelChain.moveRelativeLevels 3 delta = .ok levelChain :=
  ⟨rfl, rfl, moveToLevel_without_match_changes_nothing 3 levelChain 7 rfl rfl⟩

/-! ## Item equality -/

/-- The string test succeeds exactly when the first C string is a prefix of
the second. -/
theorem menuTestStrings_iff_initial_part (a : List Nat) :
    ∀ b : List Nat, MenuItem.menuTestStrings a b = true ↔ cstr a <+: cstr b := by
  induction a with
  | nil => intro b; simp [MenuItem.menuTestStrings, cstr]
  | cons x a ih =>
    intro b
    by_cases hx : x = 0
    · simp [MenuItem.menuTestStrings, cstr, hx]
    · cases b with
      | nil => simp [MenuItem.menuTestStrings, cstr, hx]
      | cons y b =>
        by_cases hxy : x = y
        · subst hxy
          simp [MenuItem.menuTestStrings, cstr, hx, List.takeWhile_cons]
          simpa [cstr] using ih b
        · by_cases hy : y = 0
          · simp [MenuItem.menuTestStrings, cstr, hx, hxy, hy, List.takeWhile_cons]
          · simp [MenuItem.menuTestStrings, cstr, hx, hxy, hy, List.takeWhile_cons]

/-- C13, on two items constructed with the names "Fi" and "File" and equal
values: the names differ, yet `isEqual` called on the item named "Fi" with
the other as argument answers true (the other way round it answers false). -/
theorem isEqual_accepts_proper_prefix :
    itemFi.name = [70, 105] ∧
    itemFile.name = [70, 105, 108, 101] ∧
    cstr itemFi.name ≠ cstr itemFile.name ∧
    itemFi.value = itemFile.value ∧
    itemFi.isEqual itemFile = true ∧
    itemFile.isEqual itemFi = false := by
  decide

/-- C14: for two items whose names are the same text, `isEqual` answers true
when their values are equal and false when they differ. -/
theorem isEqual_same_name_compares_values (a b : MenuItem) (hname : cstr a.name = cstr b.name) :
    (a.value = b.value → a.isEqual b = true) ∧ (a.value ≠ b.value → a.isEqual b = false) := by
  have ht : MenuItem.menuTestStrings a.name b.name = true := by
    rw [menuTestStrings_iff_initial_part, hname]
  constructor
  · intro hv
    simp [MenuItem.isEqual, ht, hv]
  · intro hv
    simp [MenuItem.isEqual, ht, hv]

/-- C14 on two separately constructed items named "File". -/
theorem isEqual_same_name_compares_values_witness :
    cstr itemFile.name = cstr (MenuItem.construct MenuItem.zeroed [70, 105, 108, 101] 0).name ∧
    (itemFile.value = (MenuItem.construct MenuItem.zeroed [70, 105, 108, 101] 0).value →
      itemFile.isEqual (MenuItem.construct MenuItem.zeroed [70, 105, 108, 101] 0) = true) ∧
    (itemFile.value ≠ (MenuItem.construct MenuItem.zeroed [70, 105, 108, 101] 0).value →
      itemFile.isEqual (MenuItem.construct MenuItem.zeroed [70, 105, 108, 101] 0) = false) ∧
    itemFile.isEqual { itemFile with value := 3 } = false :=
  ⟨rfl, (isEqual_same_name_compares_values itemFile
      (MenuItem.construct MenuItem.zeroed [70, 105, 108, 101] 0) rfl).1,
    (isEqual_same_name_compares_values itemFile
      (MenuItem.construct MenuItem.zeroed [70, 105, 108, 101] 0) rfl).2,
    (isEqual_same_name_compares_values itemFile { itemFile with value := 3 } rfl).2
      (by decide)⟩

/-! ## Use, move hooks, exit, relative levels -/

/-- C15: `use()` leaves the backend as it was except that it invokes, in this
order and each only if set, the current item's `onUse` hook and the global
use hook, both with an event referencing the current item; current and every
item are unchanged and no other callback is invoked. -/
theorem use_fires_item_hook_then_global_hook (s : MenuBackend) :
    s.use = { s with
        log := s.log ++
          callsOf (s.heap s.current).cb_onUse (Event.use s.current) s.current s.heap ++
          callsOf s.cb_menuUse (Event.use s.current) s.current s.heap } ∧
    s.use.current = s.current ∧
    s.use.heap = s.heap ∧
    ∀ c ∈ s.use.log.drop s.log.length, c.ev = Event.use s.current := by
  have key : s.use = { s with
        log := s.log ++
          callsOf (s.heap s.current).cb_onUse (Event.use s.current) s.current s.heap ++
          callsOf s.cb_menuUse (Event.use s.current) s.current s.heap } := by
    simp [MenuBackend.use, fire_eq]
  refine ⟨key, use_current s, use_heap s, ?_⟩
  intro c hc
  rw [key] at hc
  simp only [List.append_assoc, List.drop_left, List.mem_append] at hc
  rcases hc with hc | hc <;> exact mem_callsOf hc

/-- C16: a directional movement first invokes the current item's hook for that
direction, if set, once, with an event referencing the current item X and
while no item has been written yet; only then, if X has a neighbour Y in
that direction, is the `back` of Y written and are the change callbacks
invoked.  Without a neighbour the hook is invoked all the same. -/
theorem move_hook_fires_before_the_move (s : MenuBackend) (d : Move)
    (hd : d.directional = true) :
    (d.run s).log = s.log ++
      callsOf (d.hook (s.heap s.current)) (Event.move s.current) s.current s.heap ++
      (match d.target (s.heap s.current) with
        | none => []
        | some y =>
          callsOf ((s.heap.set y { s.heap y with back := some s.current }) s.current).cb_onChangeFrom
              (Event.change s.current y) s.current
              (s.heap.set y { s.heap y with back := some s.current }) ++
            callsOf ((s.heap.set y { s.heap y with back := some s.current }) y).cb_onChangeTo
              (Event.change s.current y) s.current
              (s.heap.set y { s.heap y with back := some s.current }) ++
            callsOf s.cb_menuChange (Event.change s.current y) s.current
              (s.heap.set y { s.heap y with back := some s.current })) := by
  have hl : ∀ (y x : Nat) (b : Ptr),
      ((s.heap.set y { s.heap y with back := b }) x).before = (s.heap x).before ∧
      ((s.heap.set y { s.heap y with back := b }) x).after = (s.heap x).after ∧
      ((s.heap.set y { s.heap y with back := b }) x).left = (s.heap x).left ∧
      ((s.heap.set y { s.heap y with back := b }) x).right = (s.heap x).right := by
    intro y x b
    by_cases hxy : x = y <;> simp [Heap.set, hxy]
  cases d <;> simp [Move.directional] at hd <;>
    simp only [Move.run, Move.hook, Move.target, MenuBackend.moveUp, MenuBackend.moveDown,
      MenuBackend.moveLeft, MenuBackend.moveRight, MenuItem.moveUp, MenuItem.moveDown,
      MenuItem.moveLeft, MenuItem.moveRight, fire_heap, fire_current]
  · cases hb : (s.heap s.current).before with
    | none => simp [MenuBackend.setCurrent, fire_log, hb]
    | some y => simp [MenuBackend.setCurrent, fire_log, hb, (hl y s.current _).1]
  · cases hb : (s.heap s.current).after with
    | none => simp [MenuBackend.setCurrent, fire_log, hb]
    | some y => simp [MenuBackend.setCurrent, fire_log, hb, (hl y s.current _).2.1]
  · cases hb : (s.heap s.current).left with
    | none => simp [MenuBackend.setCurrent, fire_log, hb]
    | some y => simp [MenuBackend.setCurrent, fire_log, hb, (hl y s.current _).2.2.1]
  · cases hb : (s.heap s.current).right with
    | none => simp [MenuBackend.setCurrent, fire_log, hb]
    | some y => simp [MenuBackend.setCurrent, fire_log, hb, (hl y s.current _).2.2.2]

/-- C16 on the menu `root.addAfter(A)` with root's `onDown` hook set:
`moveDown` from root invokes the hook first, then the change callbacks. -/
theorem move_hook_fires_before_the_move_witness :
    Move.down.directional = true ∧
    Move.down.hook (rootThenAWithDownHook.heap 0) = some 5 ∧
    (Move.down.run rootThenAWithDownHook).log.map Call.brief
      = [(5, Event.move 0, 0), (9, Event.change 0 1, 0), (8, Event.change 0 1, 0),
          (101, Event.change 0 1, 0)] ∧
    ((Move.down.run rootThenAWithDownHook).log.map fun c => (c.heap 1).back)
      = [none, some 0, some 0, some 0] :=
  ⟨rfl, rfl, by rw [move_hook_fires_before_the_move rootThenAWithDownHook Move.down rfl]; rfl,
    by rw [move_hook_fires_before_the_move rootThenAWithDownHook Move.down rfl]; rfl⟩

/-- C18: with the exit target E of the current item X set, `moveExit()` is
`setCurrent(E)`: it invokes, each only if set and in this order, the
`onChangeFrom` hook of X, the `onChangeTo` hook of E and the global
menu-change hook, then current is E; no move hook is invoked and no item is
written. -/
theorem moveExit_is_setCurrent_of_exit (s : MenuBackend) (e : Nat)
    (h : (s.heap s.current).exit = some e) :
    s.moveExit = s.setCurrent (some e) ∧
    s.moveExit.current = e ∧
    s.moveExit.heap = s.heap ∧
    s.moveExit.log = s.log
      ++ callsOf (s.heap s.current).cb_onChangeFrom (Event.change s.current e) s.current s.heap
      ++ callsOf (s.heap e).cb_onChangeTo (Event.change s.current e) s.current s.heap
      ++ callsOf s.cb_menuChange (Event.change s.current e) s.current s.heap ∧
    ∀ c ∈ s.moveExit.log.drop s.log.length, c.ev = Event.change s.current e := by
  have key : s.moveExit = s.setCurrent (some e) := by
    simp [MenuBackend.moveExit, h]
  refine ⟨key, ?_, ?_, ?_, ?_⟩
  · rw [key]; rfl
  · rw [key]; exact setCurrent_heap s (some e)
  · rw [key]; exact setCurrent_log s e
  · intro c hc
    rw [key, setCurrent_log] at hc
    simp only [List.append_assoc, List.drop_left, List.mem_append] at hc
    rcases hc with hc | hc | hc <;> exact mem_callsOf hc

/-- C18 on the menu `root.addExit(E)`. -/
theorem moveExit_is_setCurrent_of_exit_witness :
    (rootWithExit.heap rootWithExit.current).exit = some 1 ∧
    rootWithExit.moveExit = rootWithExit.setCurrent (some 1) ∧
    rootWithExit.moveExit.current = 1 :=
  ⟨rfl, (moveExit_is_setCurrent_of_exit rootWithExit 1 rfl).1,
    (moveExit_is_setCurrent_of_exit rootWithExit 1 rfl).2.1⟩

/-- Wrapping the `int` sum to the width of `int` (8 bits or more) does not
change its value as an `unsigned char`. -/
theorem wrapInt_emod_256 (w : Nat) (hw : 8 ≤ w) (x : Int) : wrapInt w x % 256 = x % 256 := by
  have hdvd : (256 : Int) ∣ 2 ^ w := by
    have : (2 : Int) ^ w = 2 ^ 8 * 2 ^ (w - 8) := by
      rw [← pow_add]; congr 1; omega
    rw [this]; exact Dvd.intro _ rfl
  unfold wrapInt
  rw [Int.sub_emod, Int.emod_emod_of_dvd _ hdvd, ← Int.sub_emod]
  simp

/-- C19: `moveRelativeLevels(delta)` is `moveToLevel(t)` with
t = (current.level + delta) mod 256; this is current.level + delta itself when
that lies in 0..255, the target is the same for delta and delta + 256 (so
`moveRelativeLevels(256)` is `moveRelativeLevels(0)`), and it does not depend
on the width of `int` in which the sum is formed. -/
theorem moveRelativeLevels_is_moveToLevel_mod_256 (fuel : Nat) (s : MenuBackend) (delta : Int) :
    s.moveRelativeLevels fuel delta
      = s.moveToLevel fuel ((((s.heap s.current).level : Int) + delta) % 256).toNat ∧
    (0 ≤ ((s.heap s.current).level : Int) + delta →
      ((s.heap s.current).level : Int) + delta ≤ 255 →
      s.moveRelativeLevels fuel delta
        = s.moveToLevel fuel (((s.heap s.current).level : Int) + delta).toNat) ∧
    s.moveRelativeLevels fuel (delta + 256) = s.moveRelativeLevels fuel delta ∧
    s.moveRelativeLevels fuel 256 = s.moveRelativeLevels fuel 0 ∧
    ∀ w, 8 ≤ w →
      s.moveToLevel fuel (wrapInt w (delta + (s.heap s.current).level) % 256).toNat
        = s.moveRelativeLevels fuel delta := by
  refine ⟨?_, ?_, ?_, ?_, ?_⟩
  · simp only [MenuBackend.moveRelativeLevels, add_comm]
  · intro h0 h255
    simp only [MenuBackend.moveRelativeLevels]
    rw [add_comm, Int.emod_eq_of_lt h0 (by omega)]
  · simp only [MenuBackend.moveRelativeLevels]
    congr 2
    omega
  · simp only [MenuBackend.moveRelativeLevels]
    congr 2
    omega
  · intro w hw
    simp only [MenuBackend.moveRelativeLevels, wrapInt_emod_256 w hw]

/-- C19 on the menu with levels 0, 1, 2: from the level-0 item,
`moveRelativeLevels(258)` is `moveToLevel(2)`. -/
theorem moveRelativeLevels_is_moveToLevel_mod_256_witness :
    levelChain.moveRelativeLevels 3 258 = levelChain.moveToLevel 3 2 ∧
    levelChain.moveRelativeLevels 3 256 = levelChain.moveRelativeLevels 3 0 :=
  ⟨(moveRelativeLevels_is_moveToLevel_mod_256 3 levelChain 258).1,
    (moveRelativeLevels_is_moveToLevel_mod_256 3 levelChain 258).2.2.2.1⟩

/-! ## Link symmetry -/

theorem inheritBack_after (h : Heap) (a b x : Nat) :
    ((inheritBack h a b) x).after = (h x).after := by
  unfold inheritBack
  split_ifs
  · by_cases hx : x = b <;> simp [Heap.set, hx]
  · rfl

theorem inheritBack_before (h : Heap) (a b x : Nat) :
    ((inheritBack h a b) x).before = (h x).before := by
  unfold inheritBack
  split_ifs
  · by_cases hx : x = b <;> simp [Heap.set, hx]
  · rfl

theorem inheritBack_right (h : Heap) (a b x : Nat) :
    ((inheritBack h a b) x).right = (h x).right := by
  unfold inheritBack
  split_ifs
  · by_cases hx : x = b <;> simp [Heap.set, hx]
  · rfl

theorem inheritBack_left (h : Heap) (a b x : Nat) :
    ((inheritBack h a b) x).left = (h x).left := by
  unfold inheritBack
  split_ifs
  · by_cases hx : x = b <;> simp [Heap.set, hx]
  · rfl

/-- The directional links after `addAfter`. -/
theorem addAfter_links (h : Heap) (a b x : Nat) :
    ((MenuItem.addAfter h a b).1 x).after = (if x = a then some b else (h x).after) ∧
    ((MenuItem.addAfter h a b).1 x).before = (if x = b then some a else (h x).before) ∧
    ((MenuItem.addAfter h a b).1 x).right = (h x).right ∧
    ((MenuItem.addAfter h a b).1 x).left = (h x).left := by
  simp only [MenuItem.addAfter, inheritBack_after, inheritBack_before, inheritBack_right,
    inheritBack_left]
  rcases eq_or_ne x a with rfl | hxa <;> rcases eq_or_ne x b with rfl | hxb <;>
    simp [Heap.set, *]

/-- The directional links after `addBefore`. -/
theorem addBefore_links (h : Heap) (a b x : Nat) :
    ((MenuItem.addBefore h a b).1 x).before = (if x = a then some b else (h x).before) ∧
    ((MenuItem.addBefore h a b).1 x).after = (if x = b then some a else (h x).after) ∧
    ((MenuItem.addBefore h a b).1 x).right = (h x).right ∧
    ((MenuItem.addBefore h a b).1 x).left = (h x).left := by
  simp only [MenuItem.addBefore, inheritBack_after, inheritBack_before, inheritBack_right,
    inheritBack_left]
  rcases eq_or_ne x a with rfl | hxa <;> rcases eq_or_ne x b with rfl | hxb <;>
    simp [Heap.set, *]

/-- The directional links after `addRight`. -/
theorem addRight_links (h : Heap) (a b x : Nat) :
    ((MenuItem.addRight h a b).1 x).right = (if x = a then some b else (h x).right) ∧
    ((MenuItem.addRight h a b).1 x).left = (if x = b then some a else (h x).left) ∧
    ((MenuItem.addRight h a b).1 x).after = (h x).after ∧
    ((MenuItem.addRight h a b).1 x).before = (h x).before := by
  simp only [MenuItem.addRight, inheritBack_after, inheritBack_before, inheritBack_right,
    inheritBack_left]
  rcases eq_or_ne x a with rfl | hxa <;> rcases eq_or_ne x b with rfl | hxb <;>
    simp [Heap.set, *]

/-- The directional links after `addLeft`. -/
theorem addLeft_links (h : Heap) (a b x : Nat) :
    ((MenuItem.addLeft h a b).1 x).left = (if x = a then some b else (h x).left) ∧
    ((MenuItem.addLeft h a b).1 x).right = (if x = b then some a else (h x).right) ∧
    ((MenuItem.addLeft h a b).1 x).after = (h x).after ∧
    ((MenuItem.addLeft h a b).1 x).before = (h x).before := by
  simp only [MenuItem.addLeft, inheritBack_after, inheritBack_before, inheritBack_right,
    inheritBack_left]
  rcases eq_or_ne x a with rfl | hxa <;> rcases eq_or_ne x b with rfl | hxb <;>
    simp [Heap.set, *]

/-- Linking through two empty slots keeps the links symmetric: the forward
slot `f` of `a` and the backward slot `g` of `b` are written, all else stays. -/
theorem symmetric_pair_after_link (f g f' g' : Nat → Ptr) (a b : Nat)
    (hsym : ∀ x y, f x = some y ↔ g y = some x)
    (hf : f a = none) (hg : g b = none)
    (hf' : ∀ x, f' x = if x = a then some b else f x)
    (hg' : ∀ x, g' x = if x = b then some a else g x) :
    ∀ x y, f' x = some y ↔ g' y = some x := by
  intro x y
  rw [hf', hg']
  by_cases hxa : x = a <;> by_cases hyb : y = b
  · simp [hxa, hyb]
  · subst hxa
    have : g y ≠ some x := fun h => by rw [← hsym] at h; rw [hf] at h; cases h
    simp [hyb, this, Ne.symm hyb]
  · subst hyb
    have : f x ≠ some y := fun h => by rw [hsym] at h; rw [hg] at h; cases h
    simp [hxa, this, Ne.symm hxa]
  · simp [hxa, hyb, hsym]

/-- A linking call that finds its two slots empty keeps the links symmetric. -/
theorem symmetric_run_of_free (op : LinkOp) (h : Heap) (a b : Nat) (hsym : Symmetric h)
    (hfree : op.slotsFree h a b) : Symmetric (op.run h a b).1 := by
  intro x y
  cases op
  · -- add
    refine ⟨symmetric_pair_after_link (fun x => (h x).after) (fun x => (h x).before) _ _ a b
      (fun x y => (hsym x y).1) hfree.1 hfree.2 (fun x => (addAfter_links h a b x).1)
      (fun x => (addAfter_links h a b x).2.1) x y, ?_⟩
    show ((MenuItem.addAfter h a b).1 x).right = _ ↔ ((MenuItem.addAfter h a b).1 y).left = _
    rw [(addAfter_links h a b x).2.2.1, (addAfter_links h a b y).2.2.2]
    exact (hsym x y).2
  · -- addBefore
    constructor
    · have := symmetric_pair_after_link (fun x => (h x).before) (fun x => (h x).after)
        (fun x => ((MenuItem.addBefore h a b).1 x).before)
        (fun x => ((MenuItem.addBefore h a b).1 x).after) a b
        (fun x y => ((hsym y x).1).symm) hfree.1 hfree.2
        (fun x => (addBefore_links h a b x).1) (fun x => (addBefore_links h a b x).2.1) y x
      exact this.symm
    · show ((MenuItem.addBefore h a b).1 x).right = _ ↔ ((MenuItem.addBefore h a b).1 y).left = _
      rw [(addBefore_links h a b x).2.2.1, (addBefore_links h a b y).2.2.2]
      exact (hsym x y).2
  · -- addAfter
    refine ⟨symmetric_pair_after_link (fun x => (h x).after) (fun x => (h x).before) _ _ a b
      (fun x y => (hsym x y).1) hfree.1 hfree.2 (fun x => (addAfter_links h a b x).1)
      (fun x => (addAfter_links h a b x).2.1) x y, ?_⟩
    show ((MenuItem.addAfter h a b).1 x).right = _ ↔ ((MenuItem.addAfter h a b).1 y).left = _
    rw [(addAfter_links h a b x).2.2.1, (addAfter_links h a b y).2.2.2]
    exact (hsym x y).2
  · -- addLeft
    constructor
    · show ((MenuItem.addLeft h a b).1 x).after = _ ↔ ((MenuItem.addLeft h a b).1 y).before = _
      rw [(addLeft_links h a b x).2.2.1, (addLeft_links h a b y).2.2.2]
      exact (hsym x y).1
    · have := symmetric_pair_after_link (fun x => (h x).left) (fun x => (h x).right)
        (fun x => ((MenuItem.addLeft h a b).1 x).left)
        (fun x => ((MenuItem.addLeft h a b).1 x).right) a b
        (fun x y => ((hsym y x).2).symm) hfree.1 hfree.2
        (fun x => (addLeft_links h a b x).1) (fun x => (addLeft_links h a b x).2.1) y x
      exact this.symm
  · -- addRight
    constructor
    · show ((MenuItem.addRight h a b).1 x).after = _ ↔ ((MenuItem.addRight h a b).1 y).before = _
      rw [(addRight_links h a b x).2.2.1, (addRight_links h a b y).2.2.2]
      exact (hsym x y).1
    · exact symmetric_pair_after_link (fun x => (h x).right) (fun x => (h x).left) _ _ a b
        (fun x y => (hsym x y).2) hfree.1 hfree.2 (fun x => (addRight_links h a b x).1)
        (fun x => (addRight_links h a b x).2.1) x y

theorem symmetric_of_unlinked (h : Heap) (hu : Unlinked h) : Symmetric h := by
  intro x y
  obtain ⟨a1, -, c1, -⟩ := hu x
  obtain ⟨-, b2, -, d2⟩ := hu y
  simp [a1, c1, b2, d2]

theorem symmetric_runLinks (ops : List (LinkOp × Nat × Nat)) :
    ∀ h : Heap, Symmetric h → FreeRun h ops → Symmetric (runLinks h ops) := by
  induction ops with
  | nil => intro h hs _; exact hs
  | cons c rest ih =>
    intro h hs hfree
    exact ih _ (symmetric_run_of_free c.1 h c.2.1 c.2.2 hs hfree.1) hfree.2

/-- C17, on three freshly constructed items A, B, C (addresses 0, 1, 2) after
`A.addAfter(B); A.addAfter(C)`: the `before` of B is still A although the
`after` of A is C, so the links are not symmetric. -/
theorem link_symmetry_broken_by_relinking :
    Unlinked threeFresh ∧
    ((runLinks threeFresh [(.addAfter, 0, 1), (.addAfter, 0, 2)]) 1).before = some 0 ∧
    ((runLinks threeFresh [(.addAfter, 0, 1), (.addAfter, 0, 2)]) 0).after = some 2 ∧
    ¬ Symmetric (runLinks threeFresh [(.addAfter, 0, 1), (.addAfter, 0, 2)]) := by
  refine ⟨?_, by decide, by decide, ?_⟩
  · intro x
    by_cases h0 : x = 0 <;> by_cases h1 : x = 1 <;> by_cases h2 : x = 2 <;>
      simp [threeFresh, Heap.set, staticStore, MenuItem.zeroed, MenuItem.construct, h0, h1, h2]
  · intro hs
    have h := ((hs 0 1).1).mpr (by decide)
    revert h
    decide

/-- C17 as amended: starting from unlinked items, after any sequence of
linking calls each of which finds the two slots it writes empty (the slot of
the called item in that direction and the opposite slot of the added item),
`x.after` is `y` exactly when `y.before` is `x`, and `x.right` is `y` exactly
when `y.left` is `x`, for all items x and y. -/
theorem link_symmetry_kept_on_free_slots (h : Heap) (ops : List (LinkOp × Nat × Nat))
    (hfresh : Unlinked h) (hfree : FreeRun h ops) :
    ∀ x y, (((runLinks h ops) x).after = some y ↔ ((runLinks h ops) y).before = some x) ∧
      (((runLinks h ops) x).right = some y ↔ ((runLinks h ops) y).left = some x) :=
  symmetric_runLinks ops h (symmetric_of_unlinked h hfresh) hfree

/-- C17 on three fresh items linked by `A.addAfter(B); B.addRight(C)`. -/
theorem link_symmetry_kept_on_free_slots_witness :
    Unlinked threeFresh ∧
    FreeRun threeFresh [(.addAfter, 0, 1), (.addRight, 1, 2)] ∧
    ∀ x y,
      (((runLinks threeFresh [(.addAfter, 0, 1), (.addRight, 1, 2)]) x).after = some y ↔
        ((runLinks threeFresh [(.addAfter, 0, 1), (.addRight, 1, 2)]) y).before = some x) ∧
      (((runLinks threeFresh [(.addAfter, 0, 1), (.addRight, 1, 2)]) x).right = some y ↔
        ((runLinks threeFresh [(.addAfter, 0, 1), (.addRight, 1, 2)]) y).left = some x) := by
  have hu : Unlinked threeFresh := by
    intro x
    by_cases h0 : x = 0 <;> by_cases h1 : x = 1 <;> by_cases h2 : x = 2 <;>
      simp [threeFresh, Heap.set, staticStore, MenuItem.zeroed, MenuItem.construct, h0, h1, h2]
  have hf : FreeRun threeFresh [(.addAfter, 0, 1), (.addRight, 1, 2)] :=
    ⟨⟨rfl, rfl⟩, ⟨rfl, rfl⟩, trivial⟩
  exact ⟨hu, hf, link_symmetry_kept_on_free_slots threeFresh _ hu hf⟩

/-! ## Walks that never turn back -/

theorem Via.opp_opp (v : Via) : v.opp.opp = v := by
  cases v <;> rfl

theorem Via.opp_injective {v w : Via} (h : v.opp = w.opp) : v = w := by
  have := congrArg Via.opp h
  simpa [Via.opp_opp] using this

/-- With symmetric links, a link followed from `x` to `y` can be followed back
from `y` to `x` over the opposite link. -/
theorem link_back (h : Heap) (hsym : Symmetric h) (v : Via) (x y : Nat)
    (hl : v.link (h x) = some y) : v.opp.link (h y) = some x := by
  cases v
  · exact ((hsym x y).1).mp hl
  · exact ((hsym x y).2).mp hl
  · exact ((hsym y x).2).mpr hl
  · exact ((hsym y x).1).mpr hl

theorem follow_append (h : Heap) (a b : List Via) :
    ∀ x, follow h x (a ++ b) = (follow h x a).bind fun y => follow h y b := by
  induction a with
  | nil => intro x; rfl
  | cons v a ih =>
    intro x
    simp only [List.cons_append, follow]
    cases v.link (h x) with
    | none => rfl
    | some y => exact ih y

theorem follow_concat (h : Heap) (ws : List Via) (v : Via) (x y : Nat)
    (hf : follow h x ws = some y) : follow h x (ws ++ [v]) = v.link (h y) := by
  rw [follow_append, hf]
  simp only [Option.some_bind, follow]
  cases v.link (h y) <;> rfl

/-- With symmetric links a walk can be walked back. -/
theorem follow_reverse (h : Heap) (hsym : Symmetric h) (ws : List Via) :
    ∀ x y, follow h x ws = some y → follow h y (ws.reverse.map Via.opp) = some x := by
  induction ws with
  | nil => intro x y hf; simp [follow] at hf; simp [follow, hf]
  | cons v ws ih =>
    intro x y hf
    simp only [follow] at hf
    cases hl : v.link (h x) with
    | none => simp [hl] at hf
    | some z =>
      simp only [hl] at hf
      have h1 := ih z y hf
      simp only [List.reverse_cons, List.map_append, List.map_cons, List.map_nil]
      rw [follow_append, h1]
      simp [follow, link_back h hsym v x z hl]

/-- An initial part of a walk that never turns back never turns back. -/
theorem reduced_initial_part {p ws : List Via} (hr : Reduced ws) (hp : p <+: ws) : Reduced p :=
  List.Chain'.prefix hr hp

theorem reduced_reverse_opp (ws : List Via) (hr : Reduced ws) :
    Reduced (ws.reverse.map Via.opp) := by
  unfold Reduced at *
  rw [List.chain'_map, List.chain'_reverse]
  refine hr.imp ?_
  intro a b hab
  simp only [flip, Via.opp_opp]
  intro hba
  exact hab hba.symm

theorem mem_trail (h : Heap) (ws : List Via) :
    ∀ x z, z ∈ trail h x ws → ∃ p, p <+: ws ∧ follow h x p = some z := by
  induction ws with
  | nil =>
    intro x z hz
    simp [trail] at hz
    exact ⟨[], List.prefix_refl _, by simp [follow, hz]⟩
  | cons v ws ih =>
    intro x z hz
    simp only [trail, List.mem_cons] at hz
    rcases hz with hz | hz
    · exact ⟨[], List.nil_prefix, by simp [follow, hz]⟩
    · cases hl : v.link (h x) with
      | none => simp [hl] at hz
      | some y =>
        simp only [hl] at hz
        obtain ⟨p, hp, hf⟩ := ih y z hz
        exact ⟨v :: p, (List.prefix_cons_inj v).mpr hp, by simp [follow, hl, hf]⟩

theorem trail_length (h : Heap) (ws : List Via) :
    ∀ x y, follow h x ws = some y → (trail h x ws).length = ws.length + 1 := by
  induction ws with
  | nil => intro x y _; rfl
  | cons v ws ih =>
    intro x y hf
    simp only [follow] at hf
    cases hl : v.link (h x) with
    | none => simp [hl] at hf
    | some z =>
      simp only [hl] at hf
      simp [trail, hl, ih z y hf]

/-- In a menu without cycles a walk that never turns back passes no item
twice. -/
theorem trail_nodup (h : Heap) (hacyc : Acyclic h) (ws : List Via) :
    ∀ x y, Reduced ws → follow h x ws = some y → (trail h x ws).Nodup := by
  induction ws with
  | nil => intro x y _ _; simp [trail]
  | cons v ws ih =>
    intro x y hr hf
    simp only [follow] at hf
    cases hl : v.link (h x) with
    | none => simp [hl] at hf
    | some z =>
      simp only [hl] at hf
      simp only [trail, hl, List.nodup_cons]
      refine ⟨?_, ih z y (List.Chain'.tail hr) hf⟩
      intro hx
      obtain ⟨p, hp, hfp⟩ := mem_trail h ws z x hx
      refine hacyc x (v :: p) (by simp) ?_ (by simp [follow, hl, hfp])
      exact reduced_initial_part hr ((List.prefix_cons_inj v).mpr hp)

theorem trail_subset (h : Heap) (V : Finset Nat)
    (hclosed : ∀ x ∈ V, ∀ v y, Via.link v (h x) = some y → y ∈ V) (ws : List Via) :
    ∀ x, x ∈ V → ∀ z ∈ trail h x ws, z ∈ V := by
  induction ws with
  | nil => intro x hx z hz; simp [trail] at hz; rw [hz]; exact hx
  | cons v ws ih =>
    intro x hx z hz
    simp only [trail, List.mem_cons] at hz
    rcases hz with hz | hz
    · rw [hz]; exact hx
    · cases hl : v.link (h x) with
      | none => simp [hl] at hz
      | some y =>
        simp only [hl] at hz
        exact ih y (hclosed x hx v y hl) z hz

/-- In a finite menu without cycles a walk that never turns back passes fewer
items than the menu has. -/
theorem walk_length_lt_card (h : Heap) (hacyc : Acyclic h) (V : Finset Nat)
    (hclosed : ∀ x ∈ V, ∀ v y, Via.link v (h x) = some y → y ∈ V)
    (ws : List Via) (x y : Nat) (hx : x ∈ V) (hr : Reduced ws)
    (hf : follow h x ws = some y) : ws.length + 1 ≤ V.card := by
  have hn := trail_nodup h hacyc ws x y hr hf
  have hs := trail_subset h V hclosed ws x hx
  rw [← trail_length h ws x y hf, ← List.toFinset_card_of_nodup hn]
  apply Finset.card_le_card
  intro z hz
  exact hs z (List.mem_toFinset.mp hz)

theorem reduced_concat (ws : List Via) (v w : Via) (hr : Reduced (ws ++ [v])) (hw : w ≠ v.opp) :
    Reduced (ws ++ [v] ++ [w]) := by
  unfold Reduced at *
  rw [List.chain'_append]
  refine ⟨hr, List.chain'_singleton w, ?_⟩
  intro a ha b hb
  simp at ha hb
  rw [← ha, ← hb]
  exact hw

/-- In a finite menu without cycles the part of the menu that a search meets
after a walk `ws` from `start` is finite, within a depth that shrinks with the
length of the walk. -/
theorem finiteVia_of_acyclic (h : Heap) (hacyc : Acyclic h) (V : Finset Nat)
    (hclosed : ∀ x ∈ V, ∀ v y, Via.link v (h x) = some y → y ∈ V)
    (start : Nat) (hstart : start ∈ V) (n : Nat) :
    ∀ (ws : List Via) (x : Nat) (v : Via), follow h start ws = some x → Reduced (ws ++ [v]) →
      V.card ≤ n + ws.length → finiteVia (n + 1) h v (v.link (h x)) = true := by
  induction n with
  | zero =>
    intro ws x v hf hr hc
    cases hl : v.link (h x) with
    | none => simp [finiteVia]
    | some y =>
      have hf' : follow h start (ws ++ [v]) = some y := by
        rw [follow_concat h ws v start x hf, hl]
      have := walk_length_lt_card h hacyc V hclosed (ws ++ [v]) start y hstart hr hf'
      simp at this
      omega
  | succ n ih =>
    intro ws x v hf hr hc
    cases hl : v.link (h x) with
    | none => simp [finiteVia]
    | some y =>
      have hf' : follow h start (ws ++ [v]) = some y := by
        rw [follow_concat h ws v start x hf, hl]
      have hlen : V.card ≤ n + (ws ++ [v]).length := by
        simp; omega
      have step : ∀ w : Via, w ≠ v.opp → finiteVia (n + 1) h w (w.link (h y)) = true :=
        fun w hw => ih (ws ++ [v]) y w hf' (reduced_concat ws v w hr hw) hlen
      cases v <;> simp only [finiteVia, Bool.and_eq_true]
      · exact ⟨⟨step .after (by decide), step .right (by decide)⟩, step .left (by decide)⟩
      · exact ⟨⟨step .after (by decide), step .right (by decide)⟩, step .before (by decide)⟩
      · exact ⟨⟨step .after (by decide), step .left (by decide)⟩, step .before (by decide)⟩
      · exact ⟨⟨step .right (by decide), step .left (by decide)⟩, step .before (by decide)⟩

/-- A finite menu without cycles is finite for the search from any of its
items, at every depth bound above the number of its items. -/
theorem finiteFrom_of_acyclic (h : Heap) (hacyc : Acyclic h) (V : Finset Nat)
    (hclosed : ∀ x ∈ V, ∀ v y, Via.link v (h x) = some y → y ∈ V)
    (start : Nat) (hstart : start ∈ V) (fuel : Nat) (hfuel : V.card < fuel) :
    finiteFrom fuel h start = true := by
  obtain ⟨n, rfl⟩ : ∃ n, fuel = n + 1 := ⟨fuel - 1, by omega⟩
  have step : ∀ v : Via, finiteVia (n + 1) h v (v.link (h start)) = true :=
    fun v => finiteVia_of_acyclic h hacyc V hclosed start hstart n [] start v rfl
      (List.chain'_singleton v) (by simp; omega)
  simp only [finiteFrom, Bool.and_eq_true]
  exact ⟨⟨⟨step .after, step .right⟩, step .left⟩, step .before⟩

theorem follow_concat_some (h : Heap) (ws : List Via) (v : Via) (x y : Nat)
    (hf : follow h x (ws ++ [v]) = some y) :
    ∃ z, follow h x ws = some z ∧ v.link (h z) = some y := by
  rw [follow_append] at hf
  cases hz : follow h x ws with
  | none => simp [hz] at hf
  | some z =>
    refine ⟨z, rfl, ?_⟩
    simp only [hz, Option.some_bind, follow] at hf
    cases hl : v.link (h z) with
    | none => simp [hl] at hf
    | some y' => simp [hl] at hf; rw [hf]

/-- In a menu with symmetric links and no cycle there is at most one walk that
never turns back between two items. -/
theorem reduced_walk_unique (h : Heap) (hsym : Symmetric h) (hacyc : Acyclic h)
    (w1 : List Via) :
    ∀ (w2 : List Via) (x y : Nat), Reduced w1 → Reduced w2 →
      follow h x w1 = some y → follow h x w2 = some y → w1 = w2 := by
  induction w1 using List.reverseRecOn with
  | nil =>
    intro w2 x y _ hr2 hf1 hf2
    simp [follow] at hf1
    subst hf1
    by_contra hne
    exact hacyc x w2 (fun h0 => hne h0.symm) hr2 hf2
  | append_singleton w1 v1 ih =>
    intro w2 x y hr1 hr2 hf1 hf2
    induction w2 using List.reverseRecOn with
    | nil =>
      simp [follow] at hf2
      subst hf2
      exact absurd hf1 (hacyc x (w1 ++ [v1]) (by simp) hr1)
    | append_singleton w2 v2 _ =>
      obtain ⟨z1, hz1, hl1⟩ := follow_concat_some h w1 v1 x y hf1
      obtain ⟨z2, hz2, hl2⟩ := follow_concat_some h w2 v2 x y hf2
      by_cases hv : v1 = v2
      · subst hv
        have b1 := link_back h hsym v1 z1 y hl1
        have b2 := link_back h hsym v1 z2 y hl2
        have hz : z1 = z2 := by
          rw [b1] at b2
          exact Option.some.inj b2
        subst hz
        have := ih w2 x z1 (reduced_initial_part hr1 (List.prefix_append _ _))
          (reduced_initial_part hr2 (List.prefix_append _ _)) hz1 hz2
        rw [this]
      · exfalso
        have hback := follow_reverse h hsym (w2 ++ [v2]) x y hf2
        have hclosed : follow h x ((w1 ++ [v1]) ++ ((w2 ++ [v2]).reverse.map Via.opp)) = some x := by
          rw [follow_append, hf1]
          exact hback
        refine hacyc x _ (by simp) ?_ hclosed
        unfold Reduced
        rw [List.chain'_append]
        refine ⟨hr1, reduced_reverse_opp _ hr2, ?_⟩
        intro a ha b hb
        simp at ha hb
        rw [← ha, ← hb]
        intro hopp
        exact hv (Via.opp_injective hopp).symm

/-- Every item in the search order below `p` is reached from the item at `p`
by a walk that continues the arrival over `v` without turning back. -/
theorem mem_searchOrderVia (h : Heap) (n : Nat) :
    ∀ (v : Via) (p : Ptr) (z : Nat), z ∈ searchOrderVia n h v p →
      ∃ a w, p = some a ∧ Reduced (v :: w) ∧ follow h a w = some z := by
  induction n with
  | zero => intro v p z hz; simp [searchOrderVia] at hz
  | succ n ih =>
    intro v p z hz
    cases p with
    | none => simp [searchOrderVia] at hz
    | some a =>
      have sub : ∀ w : Via, w ≠ v.opp → z ∈ searchOrderVia n h w (w.link (h a)) →
          ∃ a' w', some a = some a' ∧ Reduced (v :: w') ∧ follow h a' w' = some z := by
        intro w hw hz'
        obtain ⟨b, w', hb, hr, hf⟩ := ih w _ z hz'
        refine ⟨a, w :: w', rfl, ?_, ?_⟩
        · exact List.chain'_cons.mpr ⟨hw, hr⟩
        · simp [follow, hb, hf]
      cases v <;>
        simp only [searchOrderVia, List.mem_cons, List.mem_append] at hz <;>
        rcases hz with hz | (hz | hz) | hz
      all_goals first
        | exact sub .after (by decide) hz
        | exact sub .right (by decide) hz
        | exact sub .left (by decide) hz
        | exact sub .before (by decide) hz
        | exact ⟨a, [], rfl, List.chain'_singleton _, by rw [hz]; rfl⟩

theorem walk_of_mem_searchOrderVia (h : Heap) (n : Nat) (w : Via) (a z : Nat)
    (hz : z ∈ searchOrderVia n h w (w.link (h a))) :
    ∃ w', Reduced (w :: w') ∧ follow h a (w :: w') = some z := by
  obtain ⟨b, w', hb, hr, hf⟩ := mem_searchOrderVia h n w _ z hz
  exact ⟨w', hr, by simp [follow, hb, hf]⟩

theorem not_mem_searchOrderVia_self (h : Heap) (hacyc : Acyclic h) (n : Nat) (w : Via) (a : Nat) :
    a ∉ searchOrderVia n h w (w.link (h a)) := by
  intro hz
  obtain ⟨w', hr, hf⟩ := walk_of_mem_searchOrderVia h n w a a hz
  exact hacyc a (w :: w') (by simp) hr hf

theorem disjoint_searchOrderVia (h : Heap) (hsym : Symmetric h) (hacyc : Acyclic h)
    (n : Nat) (w1 w2 : Via) (hw : w1 ≠ w2) (a : Nat) :
    List.Disjoint (searchOrderVia n h w1 (w1.link (h a)))
      (searchOrderVia n h w2 (w2.link (h a))) := by
  intro z hz1 hz2
  obtain ⟨u1, hr1, hf1⟩ := walk_of_mem_searchOrderVia h n w1 a z hz1
  obtain ⟨u2, hr2, hf2⟩ := walk_of_mem_searchOrderVia h n w2 a z hz2
  have := reduced_walk_unique h hsym hacyc _ _ a z hr1 hr2 hf1 hf2
  exact hw (List.cons.inj this).1

/-- In a menu with symmetric links and no cycle the search order lists no item
twice. -/
theorem nodup_searchOrderVia (h : Heap) (hsym : Symmetric h) (hacyc : Acyclic h) (n : Nat) :
    ∀ (v : Via) (p : Ptr), (searchOrderVia n h v p).Nodup := by
  induction n with
  | zero => intro v p; simp [searchOrderVia]
  | succ n ih =>
    intro v p
    cases p with
    | none => simp [searchOrderVia]
    | some a =>
      have hself := not_mem_searchOrderVia_self h hacyc n
      have hdis := disjoint_searchOrderVia h hsym hacyc n
      cases v <;>
        simp only [searchOrderVia, List.nodup_cons, List.mem_append, not_or, List.nodup_append,
          List.disjoint_append_left, List.disjoint_append_right]
      · exact ⟨⟨⟨hself .after a, hself .right a⟩, hself .left a⟩,
          ⟨⟨ih _ _, ih _ _, hdis .after .right (by decide) a⟩, ih _ _,
            hdis .after .left (by decide) a, hdis .right .left (by decide) a⟩⟩
      · exact ⟨⟨⟨hself .after a, hself .right a⟩, hself .before a⟩,
          ⟨⟨ih _ _, ih _ _, hdis .after .right (by decide) a⟩, ih _ _,
            hdis .after .before (by decide) a, hdis .right .before (by decide) a⟩⟩
      · exact ⟨⟨⟨hself .after a, hself .left a⟩, hself .before a⟩,
          ⟨⟨ih _ _, ih _ _, hdis .after .left (by decide) a⟩, ih _ _,
            hdis .after .before (by decide) a, hdis .left .before (by decide) a⟩⟩
      · exact ⟨⟨⟨hself .right a, hself .left a⟩, hself .before a⟩,
          ⟨⟨ih _ _, ih _ _, hdis .right .left (by decide) a⟩, ih _ _,
            hdis .right .before (by decide) a, hdis .left .before (by decide) a⟩⟩

/-- In a menu with symmetric links and no cycle the search order from `start`
lists no item twice and does not list `start`. -/
theorem subtreeOrder_nodup (h : Heap) (hsym : Symmetric h) (hacyc : Acyclic h) (n : Nat)
    (start : Nat) : (subtreeOrder n h start).Nodup ∧ start ∉ subtreeOrder n h start := by
  have hself := not_mem_searchOrderVia_self h hacyc n
  have hdis := disjoint_searchOrderVia h hsym hacyc n
  have hn := nodup_searchOrderVia h hsym hacyc n
  simp only [subtreeOrder, List.mem_append, not_or, List.nodup_append,
    List.disjoint_append_left, List.disjoint_append_right]
  exact ⟨⟨⟨⟨hn _ _, hn _ _, hdis .after .right (by decide) start⟩, hn _ _,
      hdis .after .left (by decide) start, hdis .right .left (by decide) start⟩, hn _ _,
      ⟨hdis .after .before (by decide) start, hdis .right .before (by decide) start⟩,
      hdis .left .before (by decide) start⟩,
    ⟨⟨hself .after start, hself .right start⟩, hself .left start⟩, hself .before start⟩

/-- The items the level search examines are among those of the search order,
in the same order. -/
theorem examinedVia_sublist (level : Nat) (h : Heap) (n : Nat) :
    ∀ (v : Via) (p : Ptr), List.Sublist (examinedVia level n h v p) (searchOrderVia n h v p) := by
  induction n with
  | zero => intro v p; simp [examinedVia, searchOrderVia]
  | succ n ih =>
    intro v p
    cases p with
    | none => simp [examinedVia, searchOrderVia]
    | some a =>
      by_cases hl : (h a).level = level
      · cases v <;> simp [examinedVia, searchOrderVia, hl]
      · cases v <;>
          simp only [examinedVia, searchOrderVia, hl, if_false] <;>
          exact List.Sublist.cons₂ _
            (List.Sublist.append (List.Sublist.append (ih _ _) (ih _ _)) (ih _ _))

theorem examinedFrom_sublist (level : Nat) (h : Heap) (n : Nat) (start : Nat) :
    List.Sublist (examinedFrom level n h start) (subtreeOrder n h start) := by
  simp only [examinedFrom, subtreeOrder]
  exact List.Sublist.append (List.Sublist.append (List.Sublist.append
    (examinedVia_sublist _ _ _ _ _) (examinedVia_sublist _ _ _ _ _))
    (examinedVia_sublist _ _ _ _ _)) (examinedVia_sublist _ _ _ _ _)

/-! ## The level search on tree-shaped menus -/

/-- The items on which the level search calls `setCurrent` are the examined
items that are at the level searched for. -/
theorem matchesVia_eq_filter_examined (level : Nat) (h : Heap) (n : Nat) :
    ∀ (v : Via) (p : Ptr),
      matchesVia (fun i => decide (i.level = level)) n h v p
        = (examinedVia level n h v p).filter fun a => decide ((h a).level = level) := by
  induction n with
  | zero => intro v p; simp [matchesVia, examinedVia]
  | succ n ih =>
    intro v p
    cases p with
    | none => simp [matchesVia, examinedVia]
    | some a =>
      by_cases hl : (h a).level = level
      · cases v <;> simp [matchesVia, examinedVia, hl]
      · cases v <;> simp [matchesVia, examinedVia, hl, ih, List.filter_append]

/-- On a menu that is finite for the search from `start`, the level search
started at `start` returns; it has called `setCurrent` on the items it met at
the level and has written no item. -/
theorem recursiveSearchForLevel_returns (fuel : Nat) (s : MenuBackend) (level start : Nat)
    (hfin : finiteFrom fuel s.heap start = true) :
    s.recursiveSearchForLevel fuel level (some start)
      = .ok ((matchesFrom (fun i => decide (i.level = level)) fuel s.heap start).foldl
          (fun s a => s.setCurrent (some a)) s) := by
  simp only [finiteFrom, Bool.and_eq_true] at hfin
  obtain ⟨⟨⟨h1, h2⟩, h3⟩, h4⟩ := hfin
  have step : ∀ (v : Via) (p : Ptr) (s0 : MenuBackend), s0.heap = s.heap →
      finiteVia fuel s.heap v p = true →
      MenuBackend.rSLVia v fuel s0 level p
        = .ok ((matchesVia (fun i => decide (i.level = level)) fuel s.heap v p).foldl
            (fun s a => s.setCurrent (some a)) s0) := by
    intro v p s0 hs hf
    have := level_search_eq level fuel v s0 p (by rw [hs]; exact hf)
    rw [this, hs]
  have sA := fun p s0 hs hf => step .after p s0 hs hf
  have sR := fun p s0 hs hf => step .right p s0 hs hf
  have sL := fun p s0 hs hf => step .left p s0 hs hf
  have sB := fun p s0 hs hf => step .before p s0 hs hf
  simp only [MenuBackend.rSLVia] at sA sR sL sB
  simp only [MenuBackend.recursiveSearchForLevel, matchesFrom, List.foldl_append]
  simp only [bind, Except.bind, foldl_setCurrent_heap, sA, sR, sL, sB, h1, h2, h3, h4]

/-- C20: on a finite menu whose links are symmetric and that has no undirected
cycle, `recursiveSearchForLevel` started at any item returns, for every level
and every depth bound above the number of items; it examines no item twice
and does not examine the start item. -/
theorem level_search_terminates_on_tree_menus (s : MenuBackend) (start level : Nat)
    (V : Finset Nat) (fuel : Nat)
    (hsym : Symmetric s.heap) (hacyc : Acyclic s.heap) (hstart : start ∈ V)
    (hclosed : ∀ x ∈ V, ∀ v y, Via.link v (s.heap x) = some y → y ∈ V)
    (hfuel : V.card < fuel) :
    (∃ s', s.recursiveSearchForLevel fuel level (some start) = .ok s') ∧
    (examinedFrom level fuel s.heap start).Nodup ∧
    start ∉ examinedFrom level fuel s.heap start := by
  have hfin := finiteFrom_of_acyclic s.heap hacyc V hclosed start hstart fuel hfuel
  obtain ⟨hn, hs⟩ := subtreeOrder_nodup s.heap hsym hacyc fuel start
  have hsub := examinedFrom_sublist level s.heap fuel start
  exact ⟨⟨_, recursiveSearchForLevel_returns fuel s level start hfin⟩, hn.sublist hsub,
    fun hmem => hs (hsub.subset hmem)⟩

theorem parallel_links_search_runs_out (fuel : Nat) :
    MenuBackend.rSLAfter fuel parallelLinks 5 (some 1) = .error Fault.outOfFuel ∧
    MenuBackend.rSLLeft fuel parallelLinks 5 (some 0) = .error Fault.outOfFuel := by
  induction fuel with
  | zero => exact ⟨rfl, rfl⟩
  | succ n ih =>
    have l0 : (parallelLinks.heap 0).level = 0 := rfl
    have l1 : (parallelLinks.heap 1).level = 0 := rfl
    have a0 : (parallelLinks.heap 0).after = some 1 := rfl
    have a1 : (parallelLinks.heap 1).after = none := rfl
    have r1 : (parallelLinks.heap 1).right = none := rfl
    have f1 : (parallelLinks.heap 1).left = some 0 := rfl
    constructor
    · cases n with
      | zero => rfl
      | succ m =>
        have e := ih.2
        simp only [MenuBackend.rSLAfter, l1, a1, r1, f1, bind, Except.bind]
        simp [MenuBackend.rSLAfter, MenuBackend.rSLRight, e, f1]
    · have e := ih.1
      simp only [MenuBackend.rSLLeft, l0, a0, bind, Except.bind]
      simp [e]

/-- Where two items are joined by two connections (after/before and
right/left) the links are symmetric, but a walk that never turns back returns
to its start, and the level search from one of the items, for a level no item
has, examines both items again and again and does not return, whatever the
depth allowed. -/
theorem level_search_loops_on_parallel_links :
    (parallelLinks.heap 0).after = some 1 ∧ (parallelLinks.heap 1).before = some 0 ∧
    (parallelLinks.heap 0).right = some 1 ∧ (parallelLinks.heap 1).left = some 0 ∧
    follow parallelLinks.heap 0 [.after, .left] = some 0 ∧
    examinedFrom 5 6 parallelLinks.heap 0 = [1, 0, 1, 0, 1, 0, 1, 0, 1, 0, 1, 0] ∧
    ∀ fuel, faultOf (parallelLinks.moveToLevel fuel 5) = some Fault.outOfFuel := by
  refine ⟨rfl, rfl, rfl, rfl, rfl, by decide, ?_⟩
  intro fuel
  have e := (parallel_links_search_runs_out fuel).1
  have a0 : (parallelLinks.heap parallelLinks.current).after = some 1 := rfl
  simp [MenuBackend.moveToLevel, MenuBackend.recursiveSearchForLevel, a0, e, bind, Except.bind,
    faultOf]

/-- The links of the menu with levels 0, 1, 2. -/
theorem levelChain_links (x : Nat) (v : Via) :
    v.link (levelChain.heap x)
      = if x = 0 ∧ v = .after then some 1
        else if x = 1 ∧ v = .before then some 0
        else if x = 1 ∧ v = .right then some 2
        else if x = 2 ∧ v = .left then some 1
        else none := by
  by_cases h0 : x = 0
  · subst h0; cases v <;> rfl
  · by_cases h1 : x = 1
    · subst h1; cases v <;> rfl
    · by_cases h2 : x = 2
      · subst h2; cases v <;> rfl
      · cases v <;>
          simp [Via.link, levelChain, MenuItem.addAfter, MenuItem.addRight, inheritBack, Heap.set,
            h0, h1, h2, rootOnly, MenuBackend.construct, staticStore, MenuItem.zeroed,
            MenuItem.constructWithBackend, MenuItem.construct]

theorem levelChain_symmetric : Symmetric levelChain.heap := by
  intro x y
  have e1 := levelChain_links x .after
  have e2 := levelChain_links y .before
  have e3 := levelChain_links x .right
  have e4 := levelChain_links y .left
  simp only [Via.link] at e1 e2 e3 e4
  rw [e1, e2, e3, e4]
  constructor <;> constructor <;> intro h <;> split_ifs at h ⊢ <;> simp_all

theorem levelChain_acyclic : Acyclic levelChain.heap := by
  intro x ws hne hred hf
  unfold Reduced at hred
  rcases ws with _ | ⟨v1, _ | ⟨v2, _ | ⟨v3, ws⟩⟩⟩
  · exact hne rfl
  · simp only [follow, levelChain_links] at hf
    cases v1 <;> simp at hf <;> split_ifs at hf <;> simp_all
  · simp only [follow, levelChain_links] at hf
    simp only [List.chain'_cons] at hred
    cases v1 <;> cases v2 <;> simp [Via.opp] at hred hf <;> split_ifs at hf <;> simp_all
  · simp only [follow, levelChain_links] at hf
    simp only [List.chain'_cons] at hred
    cases v1 <;> cases v2 <;> cases v3 <;> simp [Via.opp] at hred hf <;>
      split_ifs at hf <;> simp_all

/-- C20 on the menu with levels 0, 1, 2 linked via after and right: the level
search from root returns and examines each of the two other items once. -/
theorem level_search_terminates_on_tree_menus_witness :
    Symmetric levelChain.heap ∧ Acyclic levelChain.heap ∧
    (∃ s', levelChain.recursiveSearchForLevel 4 2 (some 0) = .ok s') ∧
    (examinedFrom 2 4 levelChain.heap 0).Nodup ∧
    0 ∉ examinedFrom 2 4 levelChain.heap 0 ∧
    examinedFrom 2 4 levelChain.heap 0 = [1, 2] := by
  have hclosed : ∀ x ∈ ({0, 1, 2} : Finset Nat), ∀ v y,
      Via.link v (levelChain.heap x) = some y → y ∈ ({0, 1, 2} : Finset Nat) := by
    intro x _ v y hl
    rw [levelChain_links] at hl
    split_ifs at hl <;> simp_all
  have key := level_search_terminates_on_tree_menus levelChain 0 2 {0, 1, 2} 4
    levelChain_symmetric levelChain_acyclic (by decide) hclosed (by decide)
  exact ⟨levelChain_symmetric, levelChain_acyclic, key.1, key.2.1, key.2.2, by decide⟩

/-! ## Children and the private exit move -/

/-- C21: after any of the five linking calls made on A with B as the added
item, `hasChildren()` is true for A and for B (for B through its link back to
A); an item just constructed, by either constructor, reports false. -/
theorem hasChildren_after_link_and_when_fresh (op : LinkOp) (h : Heap) (a b : Nat)
    (mem : MenuItem) (itemName : List Nat) (shortKey mb lvl : Nat) :
    ((op.run h a b).1 a).hasChildren = true ∧
    ((op.run h a b).1 b).hasChildren = true ∧
    (MenuItem.construct mem itemName shortKey).hasChildren = false ∧
    (MenuItem.constructWithBackend mem mb itemName lvl shortKey).hasChildren = false := by
  refine ⟨?_, ?_, rfl, rfl⟩
  · cases op <;> simp only [LinkOp.run, MenuItem.add, MenuItem.hasChildren]
    · simp [(addAfter_links h a b a).1]
    · simp [(addBefore_links h a b a).1]
    · simp [(addAfter_links h a b a).1]
    · simp [(addLeft_links h a b a).1]
    · simp [(addRight_links h a b a).1]
  · cases op <;> simp only [LinkOp.run, MenuItem.add, MenuItem.hasChildren]
    · simp [(addAfter_links h a b b).2.1]
    · simp [(addBefore_links h a b b).2.1]
    · simp [(addAfter_links h a b b).2.1]
    · simp [(addLeft_links h a b b).2.1]
    · simp [(addRight_links h a b b).2.1]

/-- The private `moveUp`, `moveDown`, `moveLeft`, `moveRight` return the
neighbour they looked up. -/
theorem directional_item_moves_return_neighbour (h : Heap) (x : Nat) :
    (MenuItem.moveUp h x).2 = (h x).before ∧
    (MenuItem.moveDown h x).2 = (h x).after ∧
    (MenuItem.moveLeft h x).2 = (h x).left ∧
    (MenuItem.moveRight h x).2 = (h x).right := by
  refine ⟨?_, ?_, ?_, ?_⟩
  · simp only [MenuItem.moveUp]
    cases hb : (h x).before with
    | none => simp [hb]
    | some y =>
      by_cases hxy : x = y
      · subst hxy; simp [Heap.set, hb]
      · simp [Heap.set, hxy, hb]
  · simp only [MenuItem.moveDown]
    cases hb : (h x).after with
    | none => simp [hb]
    | some y =>
      by_cases hxy : x = y
      · subst hxy; simp [Heap.set, hb]
      · simp [Heap.set, hxy, hb]
  · simp only [MenuItem.moveLeft]
    cases hb : (h x).left with
    | none => simp [hb]
    | some y =>
      by_cases hxy : x = y
      · subst hxy; simp [Heap.set, hb]
      · simp [Heap.set, hxy, hb]
  · simp only [MenuItem.moveRight]
    cases hb : (h x).right with
    | none => simp [hb]
    | some y =>
      by_cases hxy : x = y
      · subst hxy; simp [Heap.set, hb]
      · simp [Heap.set, hxy, hb]

/-- The private `MenuItem::moveExit` returns the item's own `back`, whatever
its exit target is (its `back` as just stamped, should the item be its own
exit target). -/
theorem item_moveExit_returns_back (h : Heap) (x : Nat) :
    (MenuItem.moveExit h x).2 = (if (h x).exit = some x then some x else (h x).back) := by
  simp only [MenuItem.moveExit]
  cases he : (h x).exit with
  | none => simp
  | some e =>
    by_cases hxe : x = e
    · subst hxe; simp [Heap.set]
    · have : e ≠ x := fun h' => hxe h'.symm
      simp [Heap.set, hxe, this]

/-- C22, the private `MenuItem::moveExit` on two items.  On the root of the
menu `root.addExit(E)` (exit target E at address 1, `back` null) it stamps the
`back` of E but returns null, not E.  On the item A of `root.addAfter(A)`
after `moveDown` (no exit target, `back` = root) it changes nothing but
returns root, not null. -/
theorem item_moveExit_returns_back_not_exit :
    (rootWithExit.heap 0).exit = some 1 ∧
    (rootWithExit.heap 0).back = none ∧
    ((MenuItem.moveExit rootWithExit.heap 0).1 1).back = some 0 ∧
    (MenuItem.moveExit rootWithExit.heap 0).2 = none ∧
    (rootThenA.moveDown.heap 1).exit = none ∧
    (rootThenA.moveDown.heap 1).back = some 0 ∧
    (MenuItem.moveExit rootThenA.moveDown.heap 1).1 = rootThenA.moveDown.heap ∧
    (MenuItem.moveExit rootThenA.moveDown.heap 1).2 = some 0 := by
  refine ⟨rfl, rfl, rfl, rfl, rfl, rfl, rfl, rfl⟩

end MenuBackendModel
